import Mathlib

/-!
# Verification of the replicated expense ledger (`ExpenseSplit`)

Shallow embedding of the expense-ledger core found in the repository source
(`ExpenseSplit` class and its top-level helpers).  JavaScript strings are
modelled through their character lists; JS `Map`/`Set` are modelled as
association lists / lists with explicit first-occurrence semantics, matching
the insertion-order behaviour of the originals.  `localeCompare` is modelled
as the code-unit (character value) lexicographic order.  All machine numbers
are modelled as `Int` with the explicit `Number.isSafeInteger` bound where
the source checks it.
-/

/-! ## JS primitives used by the source -/

/-- The whitespace characters removed by `String.prototype.trim`
(ASCII subset of the JS WhiteSpace/LineTerminator productions). -/
def jsWhitespace (c : Char) : Bool :=
  c == ' ' || c == '\t' || c == '\n' || c == '\r' || c == '\x0b' || c == '\x0c'

/-- Drop leading whitespace from a character list. -/
def trimLeftChars (l : List Char) : List Char := l.dropWhile jsWhitespace

/-- Drop trailing whitespace from a character list. -/
def trimRightChars (l : List Char) : List Char :=
  (l.reverse.dropWhile jsWhitespace).reverse

/-- Model of `String.prototype.trim`. -/
def jsTrim (s : String) : String := ⟨trimRightChars (trimLeftChars s.data)⟩

/-- Model of `String(value || '').trim()` (source: `normalizeText`).
`none` stands for a JS `null`/`undefined` argument, which `value || ''`
turns into the empty string. -/
def normalizeText (value : Option String) : String := jsTrim (value.getD "")

/-- ASCII case folding of one character, as `String.prototype.toLowerCase`
performs on code units in the `A`-`Z` range. -/
def jsLowerChar (c : Char) : Char :=
  if 65 ≤ c.toNat ∧ c.toNat ≤ 90 then Char.ofNat (c.toNat + 32) else c

/-- Model of `String.prototype.toLowerCase` (ASCII range). -/
def jsToLower (s : String) : String := ⟨s.data.map jsLowerChar⟩

/-- Source: `normalizeMember = (value) => normalizeText(value).toLowerCase()`. -/
def normalizeMember (value : Option String) : String := jsToLower (normalizeText value)

/-- Model of `String.prototype.split(',')`: `"".split(',') = [""]`,
`"a,".split(',') = ["a", ""]`. -/
def splitCommaAux : List Char → List Char → List String
  | [], acc => [⟨acc.reverse⟩]
  | c :: cs, acc =>
      if c == ',' then ⟨acc.reverse⟩ :: splitCommaAux cs [] else splitCommaAux cs (c :: acc)

/-- `s.split(',')`. -/
def splitCommas (s : String) : List String := splitCommaAux s.data []

/-- The loosely-typed `split` argument: a JS array of values, a
comma-separated string, or anything else (which yields no members). -/
inductive RawSplit where
  | arr (values : List (Option String))
  | str (s : String)
  | other
deriving DecidableEq

/-- Source: `parseMembers` — coerce to a list, normalize every entry,
drop empty names and duplicates keeping first-seen order. -/
def parseMembers (value : RawSplit) : List String :=
  let values : List (Option String) :=
    match value with
    | .arr xs => xs
    | .str s => (splitCommas s).map some
    | .other => []
  values.foldl
    (fun acc raw =>
      let member := normalizeMember raw
      if member = "" ∨ member ∈ acc then acc else acc ++ [member])
    []

/-- Decimal value of a digit list (most significant first). -/
def digitsToNat (l : List Char) : Nat := l.foldl (fun acc c => acc * 10 + (c.toNat - 48)) 0

/-- Model of `Number.parseInt(·, 10)` on a string: skip leading whitespace,
read an optional sign and then the maximal digit run; `none` models `NaN`. -/
def parseIntChars (l : List Char) : Option Int :=
  match l.dropWhile jsWhitespace with
  | '-' :: rest =>
      let ds := rest.takeWhile Char.isDigit
      if ds.isEmpty then none else some (-(digitsToNat ds : Int))
  | '+' :: rest =>
      let ds := rest.takeWhile Char.isDigit
      if ds.isEmpty then none else some (digitsToNat ds)
  | rest =>
      let ds := rest.takeWhile Char.isDigit
      if ds.isEmpty then none else some (digitsToNat ds)

/-- The loosely-typed `amountCents` field.  `num n` models a JS number whose
decimal rendering is plain (all integers the ledger ever stores are safe
integers, rendered in plain decimal, so `Number.parseInt` recovers them
exactly); `str s` models a string input. -/
inductive JsAmount where
  | num (n : Int)
  | str (s : String)
deriving DecidableEq

/-- `Number.parseInt(value, 10)` on the loosely-typed field. -/
def parseIntJs : JsAmount → Option Int
  | .num n => some n
  | .str s => parseIntChars s.data

/-- `Number.isSafeInteger` on a mathematical integer. -/
def isSafeInteger (n : Int) : Bool := decide (n.natAbs ≤ 9007199254740991)

/-! ## Event model -/

/-- A normalized expense event, as stored in a room. -/
structure Event where
  txId : String
  payer : String
  amountCents : Int
  split : List String
  note : String
  ts : Int
  by_ : Option String
deriving DecidableEq

/-- A loosely-typed candidate event (an object-shaped JS value; the source
returns `null` outright for non-objects). -/
structure RawEvent where
  txId : Option String
  payer : Option String
  amountCents : JsAmount
  split : RawSplit
  note : Option String
  ts : Option Int
  by_ : Option String
deriving DecidableEq

/-- Source: `ExpenseSplit.normalizeEvent`.  `now` models `Date.now()`, the
default timestamp when `event.ts` is absent or non-finite. -/
def normalizeEvent (now : Int) (event : RawEvent) : Option Event :=
  let txId := normalizeText event.txId
  let payer := normalizeMember event.payer
  let split := parseMembers event.split
  match parseIntJs event.amountCents with
  | none => none
  | some amountCents =>
      if txId = "" ∨ payer = "" ∨ ¬ isSafeInteger amountCents ∨ amountCents ≤ 0 ∨ split = []
      then none
      else some
        { txId, payer, amountCents, split
          note := normalizeText event.note
          ts := event.ts.getD now
          by_ := event.by_ }

/-! ## Room store -/

/-- One mutable ledger room: its event log and the dedup index (`txSeen`,
a JS `Set` modelled as an insertion-ordered duplicate-free list). -/
structure Room where
  events : List Event
  txSeen : List String
deriving DecidableEq

def emptyRoom : Room := ⟨[], []⟩

/-- The room map of an `ExpenseSplit` instance (a JS `Map`, modelled as an
insertion-ordered association list with unique keys). -/
abbrev Store := List (String × Room)

def storeGet (st : Store) (key : String) : Option Room :=
  (st.find? (fun p => p.1 == key)).map (·.2)

/-- `Map.set`: overwrite the first binding of the key in place, else append. -/
def storeSet (st : Store) (key : String) (room : Room) : Store :=
  match st with
  | [] => [(key, room)]
  | p :: rest => if p.1 == key then (key, room) :: rest else p :: storeSet rest key room

/-- `Map.delete`. -/
def storeDelete (st : Store) (key : String) : Store :=
  st.filter (fun p => p.1 != key)

/-- The room under a key, or a fresh empty room (read-only view). -/
def roomAt (st : Store) (key : String) : Room := (storeGet st key).getD emptyRoom

/-- Source: `ExpenseSplit.getRoom` — lazy creation on first access. -/
def getRoom (st : Store) (key : String) : Room × Store :=
  match storeGet st key with
  | some room => (room, st)
  | none => (emptyRoom, storeSet st key emptyRoom)

/-- The constructor configuration that matters to the ledger: the resolved
default channel (source: `ExpenseSplit.constructor`). -/
structure Config where
  defaultChannel : String
deriving DecidableEq

/-- Source: the constructor's defaulting of `config.defaultChannel`
(a non-blank string is trimmed and kept, anything else falls back to
`'0000intercom'`). -/
def mkConfig (defaultChannel : Option String) : Config :=
  ⟨match defaultChannel with
    | some s => if jsTrim s = "" then "0000intercom" else jsTrim s
    | none => "0000intercom"⟩

/-- Source: `ExpenseSplit.resolveChannel`. -/
def resolveChannel (cfg : Config) (channel : Option String) : String :=
  let target := normalizeText channel
  if target = "" then cfg.defaultChannel else target

/-! ## Merge engine -/

/-- The structured result of `ExpenseSplit.addEvent`:
`{ok:false,error}` or `{ok:true,duplicate,event}`. -/
inductive AddResult where
  | err (error : String)
  | ok (duplicate : Bool) (event : Event)
deriving DecidableEq

/-- Source: `ExpenseSplit.addEvent` (state-passing form). -/
def addEvent (cfg : Config) (channel : Option String) (event : RawEvent) (now : Int)
    (st : Store) : AddResult × Store :=
  match normalizeEvent now event with
  | none => (.err "Invalid expense event payload.", st)
  | some normalized =>
      let key := resolveChannel cfg channel
      let (room, st') := getRoom st key
      if normalized.txId ∈ room.txSeen then (.ok true normalized, st')
      else
        (.ok false normalized,
          storeSet st' key
            { events := room.events ++ [normalized]
              txSeen := room.txSeen ++ [normalized.txId] })

/-- The stable ascending-`ts` order used by every
`.sort((a, b) => a.ts - b.ts)` in the source (JS `Array.prototype.sort` is
stable; it is modelled as a stable insertion sort). -/
def tsLe (a b : Event) : Prop := a.ts ≤ b.ts

instance : DecidableRel tsLe := fun a b => inferInstanceAs (Decidable (a.ts ≤ b.ts))

instance : IsTotal Event tsLe := ⟨fun a b => Int.le_total a.ts b.ts⟩

instance : IsTrans Event tsLe := ⟨fun _ _ _ hab hbc => Int.le_trans hab hbc⟩

/-- Source: `ExpenseSplit.list` — a `ts`-sorted copy of the room's events
(missing room: empty list; no room is created). -/
def list (cfg : Config) (channel : Option String) (st : Store) : List Event :=
  match storeGet st (resolveChannel cfg channel) with
  | none => []
  | some room => List.insertionSort tsLe room.events

/-! ## Balance calculator -/

/-- The running balance map of `ExpenseSplit.balances`
(a JS `Map`, insertion-ordered, unique keys). -/
abbrev BalMap := List (String × Int)

def mGet (m : BalMap) (k : String) : Option Int :=
  (m.find? (fun p => p.1 == k)).map (·.2)

/-- `map.get(member) || 0`. -/
def mGetD (m : BalMap) (k : String) : Int := (mGet m k).getD 0

/-- `Map.set`: overwrite the first binding in place, else append. -/
def mSet (m : BalMap) (k : String) (v : Int) : BalMap :=
  match m with
  | [] => [(k, v)]
  | p :: rest => if p.1 == k then (k, v) :: rest else p :: mSet rest k v

/-- The share of the member at position `idx` of `event.split`:
`baseShare = Math.floor(amountCents / members.length)` plus one extra cent
for the first `remainder` positions. -/
def shareAt (e : Event) (idx : Nat) : Int :=
  let count : Int := e.split.length
  let baseShare := e.amountCents.fdiv count
  let remainder := e.amountCents - baseShare * count
  baseShare + (if (idx : Int) < remainder then 1 else 0)

/-- One iteration of the event loop in `ExpenseSplit.balances`: skip events
with an empty split, charge every split member its share, credit the payer
with the full amount. -/
def applyEventBal (m : BalMap) (e : Event) : BalMap :=
  if e.split.isEmpty then m
  else
    let afterMembers :=
      e.split.enum.foldl (fun acc p => mSet acc p.2 (mGetD acc p.2 - shareAt e p.1)) m
    mSet afterMembers e.payer (mGetD afterMembers e.payer + e.amountCents)

/-- Code-unit lexicographic comparison of two character lists — the model of
`a.member.localeCompare(b.member)` used to order the balance output. -/
def charsLe : List Char → List Char → Bool
  | [], _ => true
  | _ :: _, [] => false
  | a :: as, b :: bs =>
      if a.toNat < b.toNat then true
      else if b.toNat < a.toNat then false
      else charsLe as bs

/-- The member order for the balance output sort. -/
def memberLe (a b : String × Int) : Prop := charsLe a.1.data b.1.data = true

instance : DecidableRel memberLe :=
  fun a b => inferInstanceAs (Decidable (charsLe a.1.data b.1.data = true))

/-- Source: `ExpenseSplit.balances` — fold the (ts-sorted) event list into a
balance map and return its entries sorted by member. -/
def balances (cfg : Config) (channel : Option String) (st : Store) : List (String × Int) :=
  let events := list cfg channel st
  List.insertionSort memberLe (events.foldl applyEventBal [])

/-! ## Settlement planner -/

/-- One suggested payment (`{from, to, amountCents}`). -/
structure Settlement where
  from_ : String
  to_ : String
  amountCents : Int
deriving DecidableEq

/-- The descending-`cents` order of `.sort((a, b) => b.cents - a.cents)`. -/
def centsGe (a b : String × Int) : Prop := b.2 ≤ a.2

instance : DecidableRel centsGe := fun a b => inferInstanceAs (Decidable (b.2 ≤ a.2))

/-- The greedy matching loop of `ExpenseSplit.settlements`: repeatedly match
the head debtor against the head creditor, emit the transfer when positive,
and drop whichever side reaches exactly zero. -/
def settleLoop (debtors creditors : List (String × Int)) : List Settlement :=
  match debtors, creditors with
  | [], _ => []
  | _, [] => []
  | d :: dt, c :: ct =>
      let a := min d.2 c.2
      (if 0 < a then [⟨d.1, c.1, a⟩] else []) ++
        settleLoop (if d.2 - a = 0 then dt else (d.1, d.2 - a) :: dt)
          (if c.2 - a = 0 then ct else (c.1, c.2 - a) :: ct)
termination_by debtors.length + creditors.length
decreasing_by
  rcases min_choice d.2 c.2 with h | h
  · rw [dif_pos (show d.2 - min d.2 c.2 = 0 by rw [h, sub_self])]
    split <;> simp only [List.length_cons] <;> omega
  · rw [dif_pos (show c.2 - min d.2 c.2 = 0 by rw [h, sub_self])]
    split <;> simp only [List.length_cons] <;> omega

/-- Source: `ExpenseSplit.settlements` — split the balances into creditors
and debtor magnitudes, each sorted descending, and run the greedy loop. -/
def settlements (cfg : Config) (channel : Option String) (st : Store) : List Settlement :=
  let bal := balances cfg channel st
  let creditors := List.insertionSort centsGe (bal.filter (fun e => decide (0 < e.2)))
  let debtors := List.insertionSort centsGe
    ((bal.filter (fun e => decide (e.2 < 0))).map (fun e => (e.1, |e.2|)))
  settleLoop debtors creditors

/-! ## Summary, clear, snapshot codec -/

/-- The summary bundle (`{channel, eventCount, totalCents, balances, settlements}`). -/
structure Summary where
  channel : String
  eventCount : Nat
  totalCents : Int
  balances : List (String × Int)
  settlements : List Settlement
deriving DecidableEq

/-- Source: `ExpenseSplit.summary`. -/
def summary (cfg : Config) (channel : Option String) (st : Store) : Summary :=
  let target := resolveChannel cfg channel
  let events := list cfg (some target) st
  { channel := target
    eventCount := events.length
    totalCents := events.foldl (fun sum item => sum + item.amountCents) 0
    balances := balances cfg (some target) st
    settlements := settlements cfg (some target) st }

/-- Source: `ExpenseSplit.clearChannel` (local-state part): delete the room,
return the resolved channel of the `{ok:true, channel}` reply. -/
def clearChannel (cfg : Config) (channel : Option String) (st : Store) : String × Store :=
  let target := resolveChannel cfg channel
  (target, storeDelete st target)

/-- An exported room snapshot (`{channel, version, events}`). -/
structure Snapshot where
  channel : String
  version : Int
  events : List Event
deriving DecidableEq

/-- Source: `ExpenseSplit.exportRoom`. -/
def exportRoom (cfg : Config) (channel : Option String) (st : Store) : Snapshot :=
  let target := resolveChannel cfg channel
  { channel := target, version := 1, events := list cfg (some target) st }

/-- A loosely-typed snapshot as it reaches `importRoom`; `none` events models
a value that is not an array.  The outer `Option` in `importRoom` models a
snapshot argument that is not an object. -/
structure RawSnapshot where
  channel : Option String
  version : Option Int
  events : Option (List RawEvent)

/-- Source: `ExpenseSplit.normalizeSnapshot` — re-normalize every event,
silently dropping invalid ones and duplicate `txId`s (first wins), then sort
by timestamp. -/
def normalizeSnapshot (cfg : Config) (now : Int) (snapshot : Option RawSnapshot) :
    Option Snapshot :=
  match snapshot with
  | none => none
  | some snap =>
      let events := (snap.events.getD []).foldl
        (fun acc raw =>
          match normalizeEvent now raw with
          | none => acc
          | some e => if acc.any (fun x => x.txId == e.txId) then acc else acc ++ [e])
        []
      some
        { channel := resolveChannel cfg snap.channel
          version := match snap.version with
                     | some v => if isSafeInteger v then v else 1
                     | none => 1
          events := List.insertionSort tsLe events }

/-- The structured result of `importRoom`. -/
inductive ImportResult where
  | err (error : String)
  | ok (channel : String) (added : Nat) (total : Nat)
deriving DecidableEq

/-- Source: `ExpenseSplit.importRoom` — merge (or destructively replace with)
the normalized snapshot, counting freshly added events, then re-sort. -/
def importRoom (cfg : Config) (snapshot : Option RawSnapshot) (replace : Bool) (now : Int)
    (st : Store) : ImportResult × Store :=
  match normalizeSnapshot cfg now snapshot with
  | none => (.err "Invalid snapshot.", st)
  | some normalized =>
      let (room₀, st') := getRoom st normalized.channel
      let start := if replace then emptyRoom else room₀
      let step := normalized.events.foldl
        (fun (acc : Room × Nat) e =>
          if e.txId ∈ acc.1.txSeen then acc
          else ({ events := acc.1.events ++ [e], txSeen := acc.1.txSeen ++ [e.txId] },
                acc.2 + 1))
        (start, 0)
      let room := { step.1 with events := List.insertionSort tsLe step.1.events }
      (.ok normalized.channel step.2 room.events.length, storeSet st' normalized.channel room)

/-- The JSON shape of an exported event when it is fed back into the codec. -/
def eventToRaw (e : Event) : RawEvent :=
  { txId := some e.txId, payer := some e.payer, amountCents := .num e.amountCents
    split := .arr (e.split.map some), note := some e.note, ts := some e.ts, by_ := e.by_ }

/-- The JSON shape of an exported snapshot when it is fed back into `importRoom`. -/
def snapshotToRaw (snap : Snapshot) : RawSnapshot :=
  { channel := some snap.channel, version := some snap.version
    events := some (snap.events.map eventToRaw) }

/-! ## Concrete scenario inputs (used to instantiate the theorems) -/

/-- The default configuration (`new ExpenseSplit(peer)` with no options). -/
def cfgD : Config := mkConfig none

/-- A well-formed raw event literal. -/
def rawPay (tx payer : String) (amt : Int) (split : List String) (ts : Int) : RawEvent :=
  { txId := some tx, payer := some payer, amountCents := .num amt
    split := .arr (split.map some), note := none, ts := some ts, by_ := none }

/-- The spec scenario: alice pays 30.00 split alice,bob; then bob pays 10.00
split alice,bob (both in room `"room"`). -/
def stAB : Store :=
  (addEvent cfgD (some "room") (rawPay "t2" "bob" 1000 ["alice", "bob"] 2) 0
    (addEvent cfgD (some "room") (rawPay "t1" "alice" 3000 ["alice", "bob"] 1) 0 []).2).2

/-- A stored event paying 100 cents split three ways. -/
def ev100 : Event :=
  { txId := "t", payer := "a", amountCents := 100, split := ["a", "b", "c"]
    note := "", ts := 0, by_ := none }

/-- A room whose single event nets every member to zero
(alice pays herself: balance `0`). -/
def stZero : Store :=
  (addEvent cfgD (some "zero") (rawPay "z1" "alice" 100 ["alice"] 1) 0 []).2

/-- Applying a sequence of raw events to a store (repeated `addEvent`,
keeping only the evolving store). -/
def addAll (cfg : Config) (ch : Option String) (now : Int) (st : Store)
    (l : List RawEvent) : Store :=
  l.foldl (fun s e => (addEvent cfg ch e now s).2) st

/-- The net effect of one event on one member's balance: the payer credit
minus this member's shares (counted with multiplicity over split
positions). -/
def eventDelta (e : Event) (k : String) : Int :=
  if e.split.isEmpty then 0
  else (if e.payer = k then e.amountCents else 0)
    - ((e.split.enum.filter (fun p => p.2 == k)).map (fun p => shareAt e p.1)).sum

/-- Whether an event touches a member's balance entry. -/
def touches (e : Event) (k : String) : Prop :=
  ¬ e.split.isEmpty = true ∧ (k ∈ e.split ∨ k = e.payer)

/-! ## Association-map lemmas -/

/-- Total of all balances held in the map. -/
def valuesSum (m : BalMap) : Int := (m.map (fun p => p.2)).sum

theorem mGet_cons (p : String × Int) (rest : BalMap) (k : String) :
    mGet (p :: rest) k = if p.1 = k then some p.2 else mGet rest k := by
  by_cases h : p.1 = k
  · simp [mGet, List.find?, h]
  · have hb : (p.1 == k) = false := by simp [h]
    simp [mGet, List.find?, h, hb]

theorem mGetD_cons (p : String × Int) (rest : BalMap) (k : String) :
    mGetD (p :: rest) k = if p.1 = k then p.2 else mGetD rest k := by
  by_cases h : p.1 = k <;> simp [mGetD, mGet_cons, h]

theorem mGet_mSet_self (m : BalMap) (k : String) (v : Int) :
    mGet (mSet m k v) k = some v := by
  induction m with
  | nil => simp [mSet, mGet_cons]
  | cons p rest ih =>
      by_cases h : p.1 = k
      · simp [mSet, h, mGet_cons]
      · simp [mSet, h, mGet_cons, ih]

theorem mSet_cons_self (p : String × Int) (rest : BalMap) (k : String) (v : Int)
    (hpk : p.1 = k) : mSet (p :: rest) k v = (k, v) :: rest := by
  simp [mSet, hpk]

theorem mSet_cons_ne (p : String × Int) (rest : BalMap) (k : String) (v : Int)
    (hpk : ¬ p.1 = k) : mSet (p :: rest) k v = p :: mSet rest k v := by
  simp [mSet, hpk]

theorem mGet_mSet_ne (m : BalMap) (k k' : String) (v : Int) (h : k' ≠ k) :
    mGet (mSet m k v) k' = mGet m k' := by
  induction m with
  | nil => simp [mSet, mGet_cons, mGet, Ne.symm h]
  | cons p rest ih =>
      by_cases hpk : p.1 = k
      · rw [mSet_cons_self p rest k v hpk, mGet_cons, mGet_cons,
          if_neg (Ne.symm h), if_neg (by rw [hpk]; exact Ne.symm h)]
      · rw [mSet_cons_ne p rest k v hpk, mGet_cons, mGet_cons, ih]

theorem mGetD_mSet_self (m : BalMap) (k : String) (v : Int) :
    mGetD (mSet m k v) k = v := by simp [mGetD, mGet_mSet_self]

theorem mGetD_mSet_ne (m : BalMap) (k k' : String) (v : Int) (h : k' ≠ k) :
    mGetD (mSet m k v) k' = mGetD m k' := by simp [mGetD, mGet_mSet_ne m k k' v h]

theorem valuesSum_mSet (m : BalMap) (k : String) (v : Int) :
    valuesSum (mSet m k v) = valuesSum m - mGetD m k + v := by
  induction m with
  | nil => simp [mSet, valuesSum, mGetD, mGet]
  | cons p rest ih =>
      by_cases h : p.1 = k
      · simp [mSet, h, valuesSum, mGetD_cons]
        ring
      · simp only [mSet, h, if_neg, valuesSum, List.map_cons, List.sum_cons, mGetD_cons,
          beq_iff_eq] at *
        simp [h, ih]
        ring

theorem keys_mSet (m : BalMap) (k : String) (v : Int) (a : String) :
    a ∈ (mSet m k v).map Prod.fst ↔ a ∈ m.map Prod.fst ∨ a = k := by
  induction m with
  | nil => simp [mSet]
  | cons p rest ih =>
      by_cases h : p.1 = k
      · rw [mSet_cons_self p rest k v h]
        subst h
        simp
        tauto
      · rw [mSet_cons_ne p rest k v h]
        simp [ih]
        tauto

theorem nodupKeys_mSet (m : BalMap) (k : String) (v : Int)
    (h : (m.map Prod.fst).Nodup) : ((mSet m k v).map Prod.fst).Nodup := by
  induction m with
  | nil => simp [mSet]
  | cons p rest ih =>
      rw [List.map_cons, List.nodup_cons] at h
      by_cases hpk : p.1 = k
      · rw [mSet_cons_self p rest k v hpk, List.map_cons, List.nodup_cons]
        exact ⟨hpk ▸ h.1, h.2⟩
      · rw [mSet_cons_ne p rest k v hpk, List.map_cons, List.nodup_cons]
        refine ⟨fun hm => ?_, ih h.2⟩
        rcases (keys_mSet rest k v p.1).1 hm with hm' | hh
        · exact h.1 hm'
        · exact hpk hh

/-! ## Share arithmetic: each event's shares sum to its amount -/

theorem sum_range_indicator (r : Int) (h0 : 0 ≤ r) (n : Nat) :
    ((List.range n).map (fun (i : Nat) => if (i : Int) < r then (1 : Int) else 0)).sum
      = min r n := by
  induction n with
  | zero => simp; omega
  | succ n ih =>
      rw [List.range_succ, List.map_append, List.sum_append, ih]
      simp only [List.map_cons, List.map_nil, List.sum_cons, List.sum_nil]
      by_cases h : (n : Int) < r
      · rw [if_pos h]; push_cast; omega
      · rw [if_neg h]; push_cast; omega

/-- The remainder `amountCents - baseShare * count` of the split is the
floor-division remainder: it lies in `[0, count)`. -/
theorem remainder_range (e : Event) (h : e.split ≠ []) :
    0 ≤ e.amountCents - e.amountCents.fdiv e.split.length * e.split.length ∧
      e.amountCents - e.amountCents.fdiv e.split.length * e.split.length <
        e.split.length := by
  have hlen : 0 < (e.split.length : Int) := by
    have := List.length_pos.2 h
    exact_mod_cast this
  have hfmod : e.amountCents - e.amountCents.fdiv e.split.length * e.split.length
      = e.amountCents.fmod e.split.length := by
    rw [Int.fmod_def]; ring
  rw [hfmod, Int.fmod_eq_emod _ (le_of_lt hlen)]
  exact ⟨Int.emod_nonneg _ (ne_of_gt hlen), Int.emod_lt_of_pos _ hlen⟩

/-- `shareAt`, written out: floor share plus the remainder indicator. -/
theorem shareAt_eq (e : Event) (i : Nat) :
    shareAt e i = e.amountCents.fdiv e.split.length +
      (if (i : Int) < e.amountCents - e.amountCents.fdiv e.split.length * e.split.length
        then (1 : Int) else 0) := by
  simp [shareAt]

/-- The per-member shares of one event sum to exactly its `amountCents`. -/
theorem sum_shareAt (e : Event) (h : e.split ≠ []) :
    ((List.range e.split.length).map (shareAt e)).sum = e.amountCents := by
  have hr := remainder_range e h
  rw [show shareAt e = (fun (i : Nat) => e.amountCents.fdiv e.split.length +
        (if (i : Int) < e.amountCents - e.amountCents.fdiv e.split.length * e.split.length
          then (1 : Int) else 0)) from funext (fun i => shareAt_eq e i)]
  rw [List.sum_map_add, sum_range_indicator _ hr.1]
  have hconst : ((List.range e.split.length).map
      (fun (_ : Nat) => e.amountCents.fdiv e.split.length)).sum
      = (e.split.length : Int) * e.amountCents.fdiv e.split.length := by
    rw [List.map_const', List.sum_replicate, List.length_range, nsmul_eq_mul]
  rw [hconst, min_eq_left (le_of_lt hr.2)]
  ring

/-! ## Balance conservation -/

theorem foldl_members_valuesSum (e : Event) (ps : List (Nat × String)) :
    ∀ m : BalMap,
      valuesSum (ps.foldl (fun acc p => mSet acc p.2 (mGetD acc p.2 - shareAt e p.1)) m)
        = valuesSum m - (ps.map (fun p => shareAt e p.1)).sum := by
  induction ps with
  | nil => intro m; simp
  | cons q qs ih =>
      intro m
      rw [List.foldl_cons, ih, valuesSum_mSet]
      simp only [List.map_cons, List.sum_cons]
      ring

theorem applyEventBal_valuesSum (m : BalMap) (e : Event) :
    valuesSum (applyEventBal m e) = valuesSum m := by
  by_cases h : e.split.isEmpty
  · rw [applyEventBal, if_pos h]
  · have hne : e.split ≠ [] := fun hnil => h (by rw [hnil]; rfl)
    rw [applyEventBal, if_neg h, valuesSum_mSet, foldl_members_valuesSum]
    have hsum : (e.split.enum.map (fun p => shareAt e p.1)).sum = e.amountCents := by
      rw [show (fun p : Nat × String => shareAt e p.1) = shareAt e ∘ Prod.fst from rfl,
        ← List.map_map, List.enum_map_fst]
      exact sum_shareAt e hne
    rw [hsum]
    ring

theorem foldl_applyEventBal_valuesSum (l : List Event) :
    ∀ m : BalMap, valuesSum (l.foldl applyEventBal m) = valuesSum m := by
  induction l with
  | nil => intro m; rfl
  | cons e rest ih => intro m; rw [List.foldl_cons, ih, applyEventBal_valuesSum]

/-- **C1.** For every room (any store contents, hence in particular any
sequence of valid applied events, whatever the amounts and split sizes, with
or without a division remainder), the balances returned by `balances` sum to
exactly zero cents. -/
theorem C1_balances_sum_to_zero (cfg : Config) (channel : Option String) (st : Store) :
    ((balances cfg channel st).map (fun p => p.2)).sum = 0 := by
  simp only [balances]
  have hperm := (List.perm_insertionSort memberLe
    ((list cfg channel st).foldl applyEventBal [])).map (fun p : String × Int => p.2)
  rw [hperm.sum_eq]
  have h := foldl_applyEventBal_valuesSum (list cfg channel st) []
  simpa [valuesSum] using h

/-- **C2.** For every event with a non-empty split, the balance calculator
gives the member at split position `i` a share of
`floor(amountCents / count)` plus one extra cent exactly when `i` is below
the remainder `amountCents - base * count` (so exactly the first `r`
positions in split order get the extra cent), and the shares sum to
`amountCents`.  The concrete `100 / 3 = 34,33,33` instance is checked in the
witness. -/
theorem C2_remainder_distribution (e : Event) (h : e.split ≠ []) :
    (∀ i : Nat,
      (i : Int) < e.amountCents - e.amountCents.fdiv e.split.length * e.split.length →
      shareAt e i = e.amountCents.fdiv e.split.length + 1) ∧
    (∀ i : Nat,
      ¬ (i : Int) < e.amountCents - e.amountCents.fdiv e.split.length * e.split.length →
      shareAt e i = e.amountCents.fdiv e.split.length) ∧
    ((List.range e.split.length).map (shareAt e)).sum = e.amountCents := by
  refine ⟨fun i hi => ?_, fun i hi => ?_, sum_shareAt e h⟩
  · rw [shareAt_eq, if_pos hi]
  · rw [shareAt_eq, if_neg hi, add_zero]

theorem C2_remainder_distribution_witness :
    ev100.split ≠ [] ∧
    (List.range ev100.split.length).map (shareAt ev100) = [34, 33, 33] ∧
    ((List.range ev100.split.length).map (shareAt ev100)).sum = ev100.amountCents :=
  ⟨by decide, by decide, (C2_remainder_distribution ev100 (by decide)).2.2⟩

/-! ## Store lemmas -/

theorem storeGet_cons (p : String × Room) (rest : Store) (k : String) :
    storeGet (p :: rest) k = if p.1 = k then some p.2 else storeGet rest k := by
  by_cases h : p.1 = k
  · simp [storeGet, List.find?, h]
  · have hb : (p.1 == k) = false := by simp [h]
    simp [storeGet, List.find?, h, hb]

theorem storeSet_cons_self (p : String × Room) (rest : Store) (k : String) (r : Room)
    (hpk : p.1 = k) : storeSet (p :: rest) k r = (k, r) :: rest := by
  simp [storeSet, hpk]

theorem storeSet_cons_ne (p : String × Room) (rest : Store) (k : String) (r : Room)
    (hpk : ¬ p.1 = k) : storeSet (p :: rest) k r = p :: storeSet rest k r := by
  simp [storeSet, hpk]

theorem storeGet_storeSet_self (st : Store) (k : String) (r : Room) :
    storeGet (storeSet st k r) k = some r := by
  induction st with
  | nil => simp [storeSet, storeGet_cons]
  | cons p rest ih =>
      by_cases h : p.1 = k
      · rw [storeSet_cons_self p rest k r h, storeGet_cons, if_pos rfl]
      · rw [storeSet_cons_ne p rest k r h, storeGet_cons, if_neg h, ih]

theorem storeGet_storeSet_ne (st : Store) (k k' : String) (r : Room) (h : k' ≠ k) :
    storeGet (storeSet st k r) k' = storeGet st k' := by
  induction st with
  | nil => simp [storeSet, storeGet_cons, storeGet, Ne.symm h]
  | cons p rest ih =>
      by_cases hpk : p.1 = k
      · rw [storeSet_cons_self p rest k r hpk, storeGet_cons, storeGet_cons,
          if_neg (Ne.symm h), if_neg (by rw [hpk]; exact Ne.symm h)]
      · rw [storeSet_cons_ne p rest k r hpk, storeGet_cons, storeGet_cons, ih]

theorem storeSet_storeSet (st : Store) (k : String) (r r' : Room) :
    storeSet (storeSet st k r) k r' = storeSet st k r' := by
  induction st with
  | nil => simp [storeSet]
  | cons p rest ih =>
      by_cases h : p.1 = k
      · rw [storeSet_cons_self p rest k r h, storeSet_cons_self _ rest k r' rfl,
          storeSet_cons_self p rest k r' h]
      · rw [storeSet_cons_ne p rest k r h, storeSet_cons_ne p _ k r' h,
          storeSet_cons_ne p rest k r' h, ih]

/-- `addEvent` on a valid event: uniform one-step description — the room map
after the call binds the resolved key to the room extended with the event,
and nothing else changes. -/
theorem addEvent_valid (cfg : Config) (ch : Option String) (e : RawEvent) (now : Int)
    (st : Store) (ne : Event) (hval : normalizeEvent now e = some ne)
    (hnew : ne.txId ∉ (roomAt st (resolveChannel cfg ch)).txSeen) :
    addEvent cfg ch e now st =
      (.ok false ne,
        storeSet st (resolveChannel cfg ch)
          { events := (roomAt st (resolveChannel cfg ch)).events ++ [ne]
            txSeen := (roomAt st (resolveChannel cfg ch)).txSeen ++ [ne.txId] }) := by
  rw [addEvent, hval]
  cases hg : storeGet st (resolveChannel cfg ch) with
  | some room =>
      have hroom : roomAt st (resolveChannel cfg ch) = room := by simp [roomAt, hg]
      rw [hroom] at hnew
      simp only [getRoom, hg, hroom]
      rw [if_neg hnew]
  | none =>
      have hroom : roomAt st (resolveChannel cfg ch) = emptyRoom := by simp [roomAt, hg]
      rw [hroom] at hnew
      simp only [getRoom, hg, hroom]
      rw [if_neg hnew, storeSet_storeSet]

/-- `addEvent` on a valid but already-seen event: duplicate report, store
unchanged (beyond the lazy creation of the room, which must already exist
for its dedup index to contain the transaction id). -/
theorem addEvent_duplicate (cfg : Config) (ch : Option String) (e : RawEvent) (now : Int)
    (st : Store) (ne : Event) (room : Room) (hval : normalizeEvent now e = some ne)
    (hg : storeGet st (resolveChannel cfg ch) = some room)
    (hseen : ne.txId ∈ room.txSeen) :
    addEvent cfg ch e now st = (.ok true ne, st) := by
  rw [addEvent, hval]
  simp only [getRoom, hg]
  rw [if_pos hseen]

/-- Unfolding of `normalizeEvent` when the amount fails to parse (`NaN`). -/
theorem normalizeEvent_none_eq (now : Int) (e : RawEvent)
    (hp : parseIntJs e.amountCents = none) : normalizeEvent now e = none := by
  simp only [normalizeEvent, hp]

/-- Unfolding of `normalizeEvent` when the amount parses to `n`. -/
theorem normalizeEvent_some_eq (now : Int) (e : RawEvent) (n : Int)
    (hp : parseIntJs e.amountCents = some n) :
    normalizeEvent now e =
      if normalizeText e.txId = "" ∨ normalizeMember e.payer = "" ∨
          ¬ isSafeInteger n ∨ n ≤ 0 ∨ parseMembers e.split = []
      then none
      else some
        { txId := normalizeText e.txId, payer := normalizeMember e.payer
          amountCents := n, split := parseMembers e.split
          note := normalizeText e.note, ts := e.ts.getD now, by_ := e.by_ } := by
  simp only [normalizeEvent, hp]

/-- `normalizeEvent` at a different clock value: the result only differs in
the defaulted timestamp; in particular validity and `txId` are unchanged. -/
theorem normalizeEvent_now (e : RawEvent) (now now' : Int) (ne : Event)
    (h : normalizeEvent now e = some ne) :
    normalizeEvent now' e = some { ne with ts := e.ts.getD now' } := by
  cases hp : parseIntJs e.amountCents with
  | none => rw [normalizeEvent_none_eq now e hp] at h; simp at h
  | some n =>
      rw [normalizeEvent_some_eq now e n hp] at h
      rw [normalizeEvent_some_eq now' e n hp]
      by_cases hcond : normalizeText e.txId = "" ∨ normalizeMember e.payer = "" ∨
          ¬ isSafeInteger n ∨ n ≤ 0 ∨ parseMembers e.split = []
      · rw [if_pos hcond] at h; simp at h
      · rw [if_neg hcond] at h ⊢
        injection h with h
        subst h
        rfl

/-- **C3.** Applying the same valid event (same `txId`) twice to a fresh room
stores exactly one event: the first application reports `duplicate:false` and
leaves the room with exactly that event and its `txId` indexed; the second
application (at any later clock value) returns ok with `duplicate:true` and
leaves the whole store byte-for-byte unchanged, raising no error. -/
theorem C3_idempotent_add (cfg : Config) (ch : Option String) (e : RawEvent)
    (now₁ now₂ : Int) (st₀ : Store) (ne : Event)
    (hval : normalizeEvent now₁ e = some ne)
    (hfresh : storeGet st₀ (resolveChannel cfg ch) = none) :
    (addEvent cfg ch e now₁ st₀).1 = .ok false ne ∧
    roomAt (addEvent cfg ch e now₁ st₀).2 (resolveChannel cfg ch) = ⟨[ne], [ne.txId]⟩ ∧
    (addEvent cfg ch e now₂ (addEvent cfg ch e now₁ st₀).2).1
      = .ok true { ne with ts := e.ts.getD now₂ } ∧
    (addEvent cfg ch e now₂ (addEvent cfg ch e now₁ st₀).2).2
      = (addEvent cfg ch e now₁ st₀).2 := by
  have hroom0 : roomAt st₀ (resolveChannel cfg ch) = emptyRoom := by
    simp [roomAt, hfresh]
  have hnew : ne.txId ∉ (roomAt st₀ (resolveChannel cfg ch)).txSeen := by
    rw [hroom0]; simp [emptyRoom]
  have h1 := addEvent_valid cfg ch e now₁ st₀ ne hval hnew
  rw [hroom0] at h1
  have h1' : addEvent cfg ch e now₁ st₀
      = (.ok false ne, storeSet st₀ (resolveChannel cfg ch) ⟨[ne], [ne.txId]⟩) := by
    rw [h1]; simp [emptyRoom]
  have hget1 : storeGet (addEvent cfg ch e now₁ st₀).2 (resolveChannel cfg ch)
      = some ⟨[ne], [ne.txId]⟩ := by
    rw [h1']
    exact storeGet_storeSet_self st₀ (resolveChannel cfg ch) ⟨[ne], [ne.txId]⟩
  have hval2 := normalizeEvent_now e now₁ now₂ ne hval
  have hdup := addEvent_duplicate cfg ch e now₂ (addEvent cfg ch e now₁ st₀).2
    { ne with ts := e.ts.getD now₂ } ⟨[ne], [ne.txId]⟩ hval2 hget1 (by simp)
  refine ⟨by rw [h1'], ?_, by rw [hdup], by rw [hdup]⟩
  rw [roomAt, hget1]
  rfl

theorem C3_idempotent_add_witness :
    (addEvent cfgD (some "room") (rawPay "t1" "alice" 3000 ["alice", "bob"] 1) 0
        (addEvent cfgD (some "room") (rawPay "t1" "alice" 3000 ["alice", "bob"] 1) 0 []).2).1
      = .ok true { txId := "t1", payer := "alice", amountCents := 3000,
                   split := ["alice", "bob"], note := "", ts := 1, by_ := none } ∧
    (addEvent cfgD (some "room") (rawPay "t1" "alice" 3000 ["alice", "bob"] 1) 0
        (addEvent cfgD (some "room") (rawPay "t1" "alice" 3000 ["alice", "bob"] 1) 0 []).2).2
      = (addEvent cfgD (some "room") (rawPay "t1" "alice" 3000 ["alice", "bob"] 1) 0 []).2 :=
  (fun h => ⟨h.2.2.1, h.2.2.2⟩)
    (C3_idempotent_add cfgD (some "room") (rawPay "t1" "alice" 3000 ["alice", "bob"] 1)
      0 0 []
      { txId := "t1", payer := "alice", amountCents := 3000,
          split := ["alice", "bob"], note := "", ts := 1, by_ := none }
      (by decide) (by decide))

/-! ## Trim idempotence -/

theorem dropWhile_head_not (p : α → Bool) (l : List α) :
    l.dropWhile p = [] ∨ ∃ a t, l.dropWhile p = a :: t ∧ p a = false := by
  induction l with
  | nil => left; rfl
  | cons c cs ih =>
      by_cases h : p c
      · simpa [List.dropWhile, h] using ih
      · right
        refine ⟨c, cs, ?_, by simp [h]⟩
        simp [List.dropWhile, h]

theorem dropWhile_eq_self_of_head (p : α → Bool) (l : List α)
    (h : l = [] ∨ ∃ a t, l = a :: t ∧ p a = false) : l.dropWhile p = l := by
  rcases h with rfl | ⟨a, t, rfl, ha⟩
  · rfl
  · simp [List.dropWhile, ha]

theorem trimLeftChars_idem (l : List Char) :
    trimLeftChars (trimLeftChars l) = trimLeftChars l :=
  dropWhile_eq_self_of_head jsWhitespace _ (dropWhile_head_not jsWhitespace l)

theorem trimRightChars_idem (l : List Char) :
    trimRightChars (trimRightChars l) = trimRightChars l := by
  unfold trimRightChars
  rw [List.reverse_reverse]
  rw [show List.dropWhile jsWhitespace (List.dropWhile jsWhitespace l.reverse)
      = List.dropWhile jsWhitespace l.reverse from trimLeftChars_idem l.reverse]

/-- Trimming the right end never exposes new whitespace on the left:
the trimmed-left list stays trimmed-left after a right trim. -/
theorem trimLeft_trimRight_trimLeft (l : List Char) :
    trimLeftChars (trimRightChars (trimLeftChars l)) = trimRightChars (trimLeftChars l) := by
  have hy : trimLeftChars l = [] ∨
      ∃ b s, trimLeftChars l = b :: s ∧ jsWhitespace b = false :=
    dropWhile_head_not jsWhitespace l
  obtain ⟨u, hu⟩ := List.dropWhile_suffix (l := (trimLeftChars l).reverse) jsWhitespace
  have hsplit : trimRightChars (trimLeftChars l) ++ u.reverse = trimLeftChars l := by
    have h2 := congrArg List.reverse hu
    simpa [trimRightChars] using h2
  apply dropWhile_eq_self_of_head
  cases htr : trimRightChars (trimLeftChars l) with
  | nil => left; rfl
  | cons a t =>
      right
      refine ⟨a, t, rfl, ?_⟩
      rw [htr] at hsplit
      rcases hy with hnil | ⟨b, s, hbs, hb⟩
      · rw [hnil] at hsplit
        exact absurd hsplit (by simp)
      · rw [hbs] at hsplit
        have hab : a = b := by
          have h3 := congrArg List.head? hsplit
          simpa using h3
        rw [hab]
        exact hb

theorem jsTrim_idem (s : String) : jsTrim (jsTrim s) = jsTrim s := by
  show (⟨trimRightChars (trimLeftChars (jsTrim s).data)⟩ : String) = jsTrim s
  rw [show (jsTrim s).data = trimRightChars (trimLeftChars s.data) from rfl]
  rw [trimLeft_trimRight_trimLeft, trimRightChars_idem]
  rfl

/-- The configured default channel is always trim-fixed. -/
theorem mkConfig_trim_fixed (d : Option String) :
    jsTrim (mkConfig d).defaultChannel = (mkConfig d).defaultChannel := by
  cases d with
  | none => decide
  | some s =>
      by_cases h : jsTrim s = ""
      · rw [show (mkConfig (some s)).defaultChannel = "0000intercom" by simp [mkConfig, h]]
        decide
      · rw [show (mkConfig (some s)).defaultChannel = jsTrim s by simp [mkConfig, h]]
        exact jsTrim_idem s

/-! ## Channel resolution -/

/-- **C5 counterexample.** The claim that room keys are lower-cased is false:
`resolveChannel` only trims, so the identifiers `"Room"` and `"room"` name
two distinct rooms — after adding an event under `"Room"`-trimmed-key
`"room"`-listing sees nothing. -/
theorem C5_counterexample :
    resolveChannel cfgD (some "Room") ≠ resolveChannel cfgD (some "room") ∧
    list cfgD (some "Room")
        (addEvent cfgD (some "Room") (rawPay "t1" "alice" 3000 ["alice", "bob"] 1) 0 []).2
      ≠ [] ∧
    list cfgD (some "room")
        (addEvent cfgD (some "Room") (rawPay "t1" "alice" 3000 ["alice", "bob"] 1) 0 []).2
      = [] := by
  refine ⟨by decide, by decide, by decide⟩

/-- **C5 (amended).** Every ledger operation resolves its room key by
*trimming only* (no case folding): two channel identifiers with the same
trimmed form address the same room in every operation. -/
theorem C5_trimmed_room_key (cfg : Config) (c c' : String) (h : jsTrim c = jsTrim c')
    (e : RawEvent) (now : Int) (st : Store) (rep : Bool) (v : Option Int)
    (evs : Option (List RawEvent)) :
    resolveChannel cfg (some c) = resolveChannel cfg (some c') ∧
    addEvent cfg (some c) e now st = addEvent cfg (some c') e now st ∧
    list cfg (some c) st = list cfg (some c') st ∧
    balances cfg (some c) st = balances cfg (some c') st ∧
    settlements cfg (some c) st = settlements cfg (some c') st ∧
    summary cfg (some c) st = summary cfg (some c') st ∧
    clearChannel cfg (some c) st = clearChannel cfg (some c') st ∧
    exportRoom cfg (some c) st = exportRoom cfg (some c') st ∧
    importRoom cfg (some ⟨some c, v, evs⟩) rep now st
      = importRoom cfg (some ⟨some c', v, evs⟩) rep now st := by
  have hr : resolveChannel cfg (some c) = resolveChannel cfg (some c') := by
    simp only [resolveChannel, normalizeText, Option.getD_some, h]
  refine ⟨hr, ?_, ?_, ?_, ?_, ?_, ?_, ?_, ?_⟩
  · simp only [addEvent, hr]
  · simp only [list, hr]
  · simp only [balances, list, hr]
  · simp only [settlements, balances, list, hr]
  · simp only [summary, balances, settlements, list, hr]
  · simp only [clearChannel, hr]
  · simp only [exportRoom, list, hr]
  · simp only [importRoom, normalizeSnapshot, hr]

theorem C5_trimmed_room_key_witness :
    jsTrim "  room " = jsTrim "room" ∧
    list cfgD (some "  room ") stAB = list cfgD (some "room") stAB :=
  ⟨by decide,
    (C5_trimmed_room_key cfgD "  room " "room" (by decide)
      (rawPay "x" "p" 1 ["p"] 0) 0 stAB false none none).2.2.1⟩

/-- **C9.** A channel argument that is null/undefined (`none`), empty, or
whitespace-only resolves to the configured default channel
(`"0000intercom"` when not configured otherwise), and every ledger
operation then acts on the default channel's room, not on a distinct
empty-named room. -/
theorem C9_default_channel (d : Option String) (ch : Option String)
    (h : normalizeText ch = "") (e : RawEvent) (now : Int) (st : Store) (rep : Bool)
    (v : Option Int) (evs : Option (List RawEvent)) :
    (mkConfig none).defaultChannel = "0000intercom" ∧
    resolveChannel (mkConfig d) ch = (mkConfig d).defaultChannel ∧
    addEvent (mkConfig d) ch e now st
      = addEvent (mkConfig d) (some (mkConfig d).defaultChannel) e now st ∧
    list (mkConfig d) ch st = list (mkConfig d) (some (mkConfig d).defaultChannel) st ∧
    balances (mkConfig d) ch st
      = balances (mkConfig d) (some (mkConfig d).defaultChannel) st ∧
    settlements (mkConfig d) ch st
      = settlements (mkConfig d) (some (mkConfig d).defaultChannel) st ∧
    summary (mkConfig d) ch st
      = summary (mkConfig d) (some (mkConfig d).defaultChannel) st ∧
    clearChannel (mkConfig d) ch st
      = clearChannel (mkConfig d) (some (mkConfig d).defaultChannel) st ∧
    exportRoom (mkConfig d) ch st
      = exportRoom (mkConfig d) (some (mkConfig d).defaultChannel) st ∧
    importRoom (mkConfig d) (some ⟨ch, v, evs⟩) rep now st
      = importRoom (mkConfig d) (some ⟨some (mkConfig d).defaultChannel, v, evs⟩) rep now
          st := by
  have hdef : resolveChannel (mkConfig d) (some (mkConfig d).defaultChannel)
      = (mkConfig d).defaultChannel := by
    simp only [resolveChannel, normalizeText, Option.getD_some, mkConfig_trim_fixed]
    split <;> rfl
  have hr : resolveChannel (mkConfig d) ch = (mkConfig d).defaultChannel := by
    simp [resolveChannel, h]
  have hr2 : resolveChannel (mkConfig d) ch
      = resolveChannel (mkConfig d) (some (mkConfig d).defaultChannel) := by
    rw [hr, hdef]
  refine ⟨by decide, hr, ?_, ?_, ?_, ?_, ?_, ?_, ?_, ?_⟩
  · simp only [addEvent, hr2]
  · simp only [list, hr2]
  · simp only [balances, list, hr2]
  · simp only [settlements, balances, list, hr2]
  · simp only [summary, balances, settlements, list, hr2]
  · simp only [clearChannel, hr2]
  · simp only [exportRoom, list, hr2]
  · simp only [importRoom, normalizeSnapshot, hr2]

theorem C9_default_channel_witness :
    normalizeText (some "   ") = "" ∧
    resolveChannel (mkConfig none) (some "   ") = (mkConfig none).defaultChannel ∧
    list (mkConfig none) (some "   ") stAB
      = list (mkConfig none) (some (mkConfig none).defaultChannel) stAB :=
  ⟨by decide,
    (C9_default_channel none (some "   ") (by decide) (rawPay "x" "p" 1 ["p"] 0) 0 stAB
      false none none).2.1,
    (C9_default_channel none (some "   ") (by decide) (rawPay "x" "p" 1 ["p"] 0) 0 stAB
      false none none).2.2.2.1⟩

/-- **C10.** `normalizeEvent` parses `amountCents` with `parseInt`-style
truncation rather than a strict integer check: a raw event whose
`amountCents` is the string `"12.9"` (the rendering of the JS number 12.9)
or `"12abc"` is accepted with the truncated value 12. -/
theorem C10_parseInt_truncation :
    normalizeEvent 0
        { txId := some "t", payer := some "p", amountCents := .str "12.9"
          split := .arr [some "p"], note := none, ts := some 0, by_ := none }
      = some { txId := "t", payer := "p", amountCents := 12, split := ["p"]
               note := "", ts := 0, by_ := none } ∧
    normalizeEvent 0
        { txId := some "t2", payer := some "p", amountCents := .str "12abc"
          split := .arr [some "p"], note := none, ts := some 0, by_ := none }
      = some { txId := "t2", payer := "p", amountCents := 12, split := ["p"]
               note := "", ts := 0, by_ := none } := by
  refine ⟨by decide, by decide⟩

/-- **C8.** An event is accepted by the validation boundary iff `txId` and
`payer` are non-empty after normalization, `amountCents` parses to a positive
safe integer, and the split is non-empty after normalization; when any of
these fails, `addEvent` returns the structured failure
`{ok:false, error:'Invalid expense event payload.'}` and leaves the whole
room store (all rooms, all dedup indexes) completely unchanged.  Both
functions are total, so no exception can escape. -/
theorem C8_validation_boundary (now : Int) (e : RawEvent) (cfg : Config)
    (ch : Option String) (st : Store) :
    ((∃ ne, normalizeEvent now e = some ne) ↔
      (normalizeText e.txId ≠ "" ∧ normalizeMember e.payer ≠ "" ∧
        (∃ n, parseIntJs e.amountCents = some n ∧ isSafeInteger n = true ∧ 0 < n) ∧
        parseMembers e.split ≠ [])) ∧
    (normalizeEvent now e = none →
      addEvent cfg ch e now st = (.err "Invalid expense event payload.", st)) := by
  constructor
  · cases hp : parseIntJs e.amountCents with
    | none =>
        rw [normalizeEvent_none_eq now e hp]
        simp [hp]
    | some n =>
        rw [normalizeEvent_some_eq now e n hp]
        by_cases hcond : normalizeText e.txId = "" ∨ normalizeMember e.payer = "" ∨
            ¬ isSafeInteger n ∨ n ≤ 0 ∨ parseMembers e.split = []
        · rw [if_pos hcond]
          constructor
          · rintro ⟨ne, hne⟩
            exact absurd hne (by simp)
          · rintro ⟨h1, h2, ⟨m, hm, hms, hmp⟩, h4⟩
            injection hm with hm
            subst hm
            rcases hcond with hc | hc | hc | hc | hc
            · exact absurd hc h1
            · exact absurd hc h2
            · exact absurd hms hc
            · exact absurd hmp (by omega)
            · exact absurd hc h4
        · rw [if_neg hcond]
          push_neg at hcond
          obtain ⟨h1, h2, h3, h4, h5⟩ := hcond
          constructor
          · intro _
            exact ⟨h1, h2, ⟨n, rfl, h3, by omega⟩, h5⟩
          · intro _
            exact ⟨_, rfl⟩
  · intro h
    rw [addEvent, h]

theorem C8_validation_boundary_witness :
    normalizeEvent 0
        { txId := some "t", payer := some "   ", amountCents := .num 100
          split := .arr [some "p"], note := none, ts := some 0, by_ := none }
      = none ∧
    addEvent cfgD (some "room")
        { txId := some "t", payer := some "   ", amountCents := .num 100
          split := .arr [some "p"], note := none, ts := some 0, by_ := none } 0 stAB
      = (.err "Invalid expense event payload.", stAB) :=
  ⟨by decide,
    (C8_validation_boundary 0
      { txId := some "t", payer := some "   ", amountCents := .num 100
        split := .arr [some "p"], note := none, ts := some 0, by_ := none }
      cfgD (some "room") stAB).2 (by decide)⟩

/-! ## Settlement loop lemmas -/

theorem settleLoop_nil_left (cs : List (String × Int)) : settleLoop [] cs = [] := by
  rw [settleLoop]

theorem settleLoop_nil_right (ds : List (String × Int)) : settleLoop ds [] = [] := by
  cases ds with
  | nil => rw [settleLoop]
  | cons d dt => rw [settleLoop]; simp

theorem settleLoop_cons (d c : String × Int) (dt ct : List (String × Int)) :
    settleLoop (d :: dt) (c :: ct) =
      (if 0 < min d.2 c.2 then [⟨d.1, c.1, min d.2 c.2⟩] else []) ++
        settleLoop (if d.2 - min d.2 c.2 = 0 then dt else (d.1, d.2 - min d.2 c.2) :: dt)
          (if c.2 - min d.2 c.2 = 0 then ct else (c.1, c.2 - min d.2 c.2) :: ct) := by
  rw [settleLoop]

/-- Structural facts about the greedy loop, by strong induction on the
total length: every emitted row is positive, debtor/creditor names come from
the input lists, and the number of rows is below the total number of
participants fed in (unless no row is emitted at all). -/
theorem settleLoop_props (n : Nat) :
    ∀ ds cs : List (String × Int), ds.length + cs.length ≤ n →
      (∀ s ∈ settleLoop ds cs, 0 < s.amountCents ∧
        s.from_ ∈ ds.map Prod.fst ∧ s.to_ ∈ cs.map Prod.fst) ∧
      (settleLoop ds cs = [] ∨
        (settleLoop ds cs).length + 1 ≤ ds.length + cs.length) := by
  induction n with
  | zero =>
      intro ds cs hlen
      have hd : ds = [] := List.length_eq_zero.1 (by omega)
      subst hd
      rw [settleLoop_nil_left]
      exact ⟨by simp, Or.inl rfl⟩
  | succ n ih =>
      intro ds cs hlen
      match ds, cs with
      | [], cs =>
          rw [settleLoop_nil_left]
          exact ⟨by simp, Or.inl rfl⟩
      | d :: dt, [] =>
          rw [settleLoop_nil_right]
          exact ⟨by simp, Or.inl rfl⟩
      | d :: dt, c :: ct =>
          rw [settleLoop_cons]
          have hkeysd : ∀ x, x ∈ (if d.2 - min d.2 c.2 = 0 then dt
              else (d.1, d.2 - min d.2 c.2) :: dt).map Prod.fst →
              x ∈ (d :: dt).map Prod.fst := by
            intro x hx
            split at hx
            · exact List.mem_cons_of_mem _ hx
            · simpa using hx
          have hkeysc : ∀ x, x ∈ (if c.2 - min d.2 c.2 = 0 then ct
              else (c.1, c.2 - min d.2 c.2) :: ct).map Prod.fst →
              x ∈ (c :: ct).map Prod.fst := by
            intro x hx
            split at hx
            · exact List.mem_cons_of_mem _ hx
            · simpa using hx
          have honedrop : (if d.2 - min d.2 c.2 = 0 then dt
                else (d.1, d.2 - min d.2 c.2) :: dt).length
              + (if c.2 - min d.2 c.2 = 0 then ct
                else (c.1, c.2 - min d.2 c.2) :: ct).length
              ≤ dt.length + ct.length + 1 := by
            rcases min_choice d.2 c.2 with h | h
            · rw [if_pos (show d.2 - min d.2 c.2 = 0 by rw [h, sub_self])]
              split <;> first
              | (simp only [List.length_cons]; omega)
              | omega
            · rw [if_pos (show c.2 - min d.2 c.2 = 0 by rw [h, sub_self])]
              split <;> first
              | (simp only [List.length_cons]; omega)
              | omega
          have hlen' : (if d.2 - min d.2 c.2 = 0 then dt
                else (d.1, d.2 - min d.2 c.2) :: dt).length
              + (if c.2 - min d.2 c.2 = 0 then ct
                else (c.1, c.2 - min d.2 c.2) :: ct).length ≤ n := by
            simp only [List.length_cons] at hlen
            omega
          have hrec := ih _ _ hlen'
          constructor
          · intro s hs
            rw [List.mem_append] at hs
            rcases hs with hs | hs
            · by_cases hpos : 0 < min d.2 c.2
              · rw [if_pos hpos] at hs
                rw [List.mem_singleton] at hs
                subst hs
                exact ⟨hpos, by simp, by simp⟩
              · rw [if_neg hpos] at hs
                simp at hs
            · obtain ⟨h1, h2, h3⟩ := hrec.1 s hs
              exact ⟨h1, hkeysd _ h2, hkeysc _ h3⟩
          · right
            rw [List.length_append]
            simp only [List.length_cons]
            rcases hrec.2 with hnil | hbound
            · rw [hnil]
              by_cases hpos : 0 < min d.2 c.2
              · rw [if_pos hpos]
                simp only [List.length_cons, List.length_nil]
                omega
              · rw [if_neg hpos]
                simp only [List.length_nil]
                omega
            · by_cases hpos : 0 < min d.2 c.2
              · rw [if_pos hpos]
                simp only [List.length_cons, List.length_nil]
                omega
              · rw [if_neg hpos]
                simp only [List.length_nil]
                omega

/-- At most all participants can appear as (strict) creditors and debtors
combined. -/
theorem filter_pos_neg_length (l : List (String × Int)) :
    (l.filter (fun e => decide (0 < e.2))).length
      + (l.filter (fun e => decide (e.2 < 0))).length ≤ l.length := by
  induction l with
  | nil => simp
  | cons p rest ih =>
      by_cases hp : 0 < p.2
      · have hn : ¬ p.2 < 0 := by omega
        simp [List.filter_cons, hp, hn]
        omega
      · by_cases hn : p.2 < 0
        · simp [List.filter_cons, hp, hn]
          omega
        · simp [List.filter_cons, hp, hn]
          omega

/-- **C7.** For every room: every emitted settlement row has a strictly
positive `amountCents`; the sum of settlement amounts paid by debtors
(rows whose `from` has a negative balance — i.e. all of them) equals the sum
received by creditors (rows whose `to` has a positive balance — again all of
them); the number of rows never exceeds the number of participants minus
one; and a room whose balances are all zero yields an empty settlement
list. -/
theorem C7_settlement_plan (cfg : Config) (ch : Option String) (st : Store) :
    (∀ s ∈ settlements cfg ch st, 0 < s.amountCents) ∧
    (List.map (fun s => s.amountCents)
        (List.filter
          (fun s => (balances cfg ch st).any (fun p => p.1 == s.from_ && decide (p.2 < 0)))
          (settlements cfg ch st))).sum
      = (List.map (fun s => s.amountCents)
          (List.filter
            (fun s => (balances cfg ch st).any (fun p => p.1 == s.to_ && decide (0 < p.2)))
            (settlements cfg ch st))).sum ∧
    (settlements cfg ch st).length ≤ (balances cfg ch st).length - 1 ∧
    ((∀ p ∈ balances cfg ch st, p.2 = 0) → settlements cfg ch st = []) := by
  have hset : settlements cfg ch st = settleLoop
      (List.insertionSort centsGe
        (((balances cfg ch st).filter (fun e => decide (e.2 < 0))).map
          (fun e => (e.1, |e.2|))))
      (List.insertionSort centsGe
        ((balances cfg ch st).filter (fun e => decide (0 < e.2)))) := by
    simp only [settlements]
  have hprops := settleLoop_props
    ((List.insertionSort centsGe
        (((balances cfg ch st).filter (fun e => decide (e.2 < 0))).map
          (fun e => (e.1, |e.2|)))).length
      + (List.insertionSort centsGe
          ((balances cfg ch st).filter (fun e => decide (0 < e.2)))).length)
    _ _ le_rfl
  have hfrom : ∀ s ∈ settlements cfg ch st,
      (balances cfg ch st).any (fun p => p.1 == s.from_ && decide (p.2 < 0)) = true := by
    intro s hs
    rw [hset] at hs
    have hmem := (hprops.1 s hs).2.1
    rw [(List.perm_insertionSort centsGe _).map Prod.fst |>.mem_iff, List.map_map] at hmem
    rw [show (Prod.fst ∘ fun e : String × Int => (e.1, |e.2|)) = Prod.fst from rfl] at hmem
    obtain ⟨p, hpmem, hp1⟩ := List.mem_map.1 hmem
    rw [List.mem_filter] at hpmem
    rw [List.any_eq_true]
    refine ⟨p, hpmem.1, ?_⟩
    rw [Bool.and_eq_true, beq_iff_eq]
    exact ⟨hp1, hpmem.2⟩
  have hto : ∀ s ∈ settlements cfg ch st,
      (balances cfg ch st).any (fun p => p.1 == s.to_ && decide (0 < p.2)) = true := by
    intro s hs
    rw [hset] at hs
    have hmem := (hprops.1 s hs).2.2
    rw [(List.perm_insertionSort centsGe _).map Prod.fst |>.mem_iff] at hmem
    obtain ⟨p, hpmem, hp1⟩ := List.mem_map.1 hmem
    rw [List.mem_filter] at hpmem
    rw [List.any_eq_true]
    refine ⟨p, hpmem.1, ?_⟩
    rw [Bool.and_eq_true, beq_iff_eq]
    exact ⟨hp1, hpmem.2⟩
  refine ⟨?_, ?_, ?_, ?_⟩
  · intro s hs
    rw [hset] at hs
    exact (hprops.1 s hs).1
  · rw [List.filter_eq_self.2 hfrom, List.filter_eq_self.2 hto]
  · have hD : (List.insertionSort centsGe
        (((balances cfg ch st).filter (fun e => decide (e.2 < 0))).map
          (fun e => (e.1, |e.2|)))).length
        = ((balances cfg ch st).filter (fun e => decide (e.2 < 0))).length := by
      rw [(List.perm_insertionSort centsGe _).length_eq, List.length_map]
    have hC : (List.insertionSort centsGe
        ((balances cfg ch st).filter (fun e => decide (0 < e.2)))).length
        = ((balances cfg ch st).filter (fun e => decide (0 < e.2))).length := by
      rw [(List.perm_insertionSort centsGe _).length_eq]
    have hfl := filter_pos_neg_length (balances cfg ch st)
    rcases hprops.2 with hnil | hbound
    · rw [hset, hnil]
      simp
    · rw [hset]
      rw [hD, hC] at hbound
      omega
  · intro hz
    have hcred : (balances cfg ch st).filter (fun e => decide (0 < e.2)) = [] := by
      rw [List.filter_eq_nil_iff]
      intro p hp
      simp [hz p hp]
    rw [hset, hcred]
    rw [show List.insertionSort centsGe ([] : List (String × Int)) = [] from rfl]
    exact settleLoop_nil_right _

theorem C7_settlement_plan_witness :
    (∀ p ∈ balances cfgD (some "zero") stZero, p.2 = 0) ∧
    settlements cfgD (some "zero") stZero = [] ∧
    settlements cfgD (some "room") stAB
      = [{ from_ := "bob", to_ := "alice", amountCents := 1000 }] :=
  ⟨by decide,
    (C7_settlement_plan cfgD (some "zero") stZero).2.2.2 (by decide),
    by
      have hset : settlements cfgD (some "room") stAB = settleLoop
          (List.insertionSort centsGe
            (((balances cfgD (some "room") stAB).filter (fun e => decide (e.2 < 0))).map
              (fun e => (e.1, |e.2|))))
          (List.insertionSort centsGe
            ((balances cfgD (some "room") stAB).filter (fun e => decide (0 < e.2)))) := by
        simp only [settlements]
      rw [hset]
      rw [show List.insertionSort centsGe
          (((balances cfgD (some "room") stAB).filter (fun e => decide (e.2 < 0))).map
            (fun e => (e.1, |e.2|))) = [("bob", 1000)] from by decide]
      rw [show List.insertionSort centsGe
          ((balances cfgD (some "room") stAB).filter (fun e => decide (0 < e.2)))
          = [("alice", 1000)] from by decide]
      rw [settleLoop_cons]
      norm_num [settleLoop_nil_left]⟩

/-! ## Normalization is idempotent (stored events re-normalize to themselves) -/

theorem char_ofNat_toNat (n : Nat) (h : n < 55296) : (Char.ofNat n).toNat = n := by
  have hv : n.isValidChar := Or.inl h
  rw [Char.ofNat, dif_pos hv]
  rfl

theorem jsWhitespace_toNat_lt (c : Char) (h : jsWhitespace c = true) : c.toNat < 33 := by
  simp only [jsWhitespace, Bool.or_eq_true, beq_iff_eq] at h
  rcases h with ((((h | h) | h) | h) | h) | h <;> subst h <;> decide

theorem jsLowerChar_toNat_of_upper (c : Char) (h : 65 ≤ c.toNat ∧ c.toNat ≤ 90) :
    (jsLowerChar c).toNat = c.toNat + 32 := by
  rw [jsLowerChar, if_pos h]
  exact char_ofNat_toNat _ (by omega)

theorem jsWhitespace_jsLowerChar (c : Char) :
    jsWhitespace (jsLowerChar c) = jsWhitespace c := by
  by_cases hu : 65 ≤ c.toNat ∧ c.toNat ≤ 90
  · have hd := jsLowerChar_toNat_of_upper c hu
    have h1 : jsWhitespace (jsLowerChar c) = false := by
      cases hws : jsWhitespace (jsLowerChar c)
      · rfl
      · exact absurd (jsWhitespace_toNat_lt _ hws) (by omega)
    have h2 : jsWhitespace c = false := by
      cases hws : jsWhitespace c
      · rfl
      · exact absurd (jsWhitespace_toNat_lt _ hws) (by omega)
    rw [h1, h2]
  · rw [jsLowerChar, if_neg hu]

theorem jsLowerChar_idem (c : Char) : jsLowerChar (jsLowerChar c) = jsLowerChar c := by
  by_cases hu : 65 ≤ c.toNat ∧ c.toNat ≤ 90
  · have hd := jsLowerChar_toNat_of_upper c hu
    rw [show jsLowerChar (jsLowerChar c)
        = if 65 ≤ (jsLowerChar c).toNat ∧ (jsLowerChar c).toNat ≤ 90
          then Char.ofNat ((jsLowerChar c).toNat + 32) else jsLowerChar c from rfl]
    rw [if_neg (by omega)]
  · rw [show jsLowerChar c = c from by rw [jsLowerChar, if_neg hu],
      jsLowerChar, if_neg hu]

/-- Lower-casing commutes with trimming (case folding preserves
whitespace-ness of every character). -/
theorem jsTrim_jsToLower (s : String) : jsTrim (jsToLower s) = jsToLower (jsTrim s) := by
  have hdrop : ∀ l : List Char,
      (l.map jsLowerChar).dropWhile jsWhitespace
        = (l.dropWhile jsWhitespace).map jsLowerChar := by
    intro l
    rw [List.dropWhile_map,
      show (jsWhitespace ∘ jsLowerChar) = jsWhitespace from funext jsWhitespace_jsLowerChar]
  show (⟨trimRightChars (trimLeftChars (s.data.map jsLowerChar))⟩ : String)
    = ⟨(trimRightChars (trimLeftChars s.data)).map jsLowerChar⟩
  rw [show trimLeftChars (s.data.map jsLowerChar)
      = (trimLeftChars s.data).map jsLowerChar from hdrop s.data]
  rw [show trimRightChars ((trimLeftChars s.data).map jsLowerChar)
      = (trimRightChars (trimLeftChars s.data)).map jsLowerChar from by
    rw [trimRightChars, trimRightChars, ← List.map_reverse, hdrop, List.map_reverse]]

theorem jsToLower_idem (s : String) : jsToLower (jsToLower s) = jsToLower s := by
  show (⟨(s.data.map jsLowerChar).map jsLowerChar⟩ : String) = ⟨s.data.map jsLowerChar⟩
  rw [List.map_map, show (jsLowerChar ∘ jsLowerChar) = jsLowerChar from funext jsLowerChar_idem]

theorem normalizeMember_idem (x : Option String) :
    normalizeMember (some (normalizeMember x)) = normalizeMember x := by
  show jsToLower (jsTrim (jsToLower (jsTrim (x.getD "")))) = jsToLower (jsTrim (x.getD ""))
  rw [jsTrim_jsToLower, jsTrim_idem, jsToLower_idem]

theorem normalizeText_idem (x : Option String) :
    normalizeText (some (normalizeText x)) = normalizeText x := by
  show jsTrim (jsTrim (x.getD "")) = jsTrim (x.getD "")
  exact jsTrim_idem _

theorem memberFold_inv (values : List (Option String)) :
    ∀ acc : List String, acc.Nodup → (∀ m ∈ acc, m ≠ "" ∧ normalizeMember (some m) = m) →
      (List.foldl (fun acc raw =>
          if normalizeMember raw = "" ∨ normalizeMember raw ∈ acc then acc
          else acc ++ [normalizeMember raw]) acc values).Nodup ∧
      (∀ m ∈ List.foldl (fun acc raw =>
          if normalizeMember raw = "" ∨ normalizeMember raw ∈ acc then acc
          else acc ++ [normalizeMember raw]) acc values,
        m ≠ "" ∧ normalizeMember (some m) = m) := by
  induction values with
  | nil => intro acc h1 h2; exact ⟨h1, h2⟩
  | cons raw rest ih =>
      intro acc h1 h2
      rw [List.foldl_cons]
      by_cases hc : normalizeMember raw = "" ∨ normalizeMember raw ∈ acc
      · rw [if_pos hc]
        exact ih acc h1 h2
      · rw [if_neg hc]
        push_neg at hc
        apply ih
        · rw [List.nodup_append]
          refine ⟨h1, List.nodup_singleton _, fun a ha hm => ?_⟩
          rw [List.mem_singleton] at hm
          exact hc.2 (hm ▸ ha)
        · intro m hm
          rcases List.mem_append.1 hm with hmem | hmem
          · exact h2 m hmem
          · rw [List.mem_singleton] at hmem
            subst hmem
            exact ⟨hc.1, normalizeMember_idem raw⟩

theorem parseMembers_props (v : RawSplit) :
    (parseMembers v).Nodup ∧
      ∀ m ∈ parseMembers v, m ≠ "" ∧ normalizeMember (some m) = m := by
  cases v with
  | arr xs => simpa only [parseMembers] using memberFold_inv xs [] (by simp) (by simp)
  | str s =>
      simpa only [parseMembers] using
        memberFold_inv ((splitCommas s).map some) [] (by simp) (by simp)
  | other => simp [parseMembers]

theorem memberFold_fixed (L : List String) :
    ∀ acc : List String, (∀ m ∈ L, m ≠ "" ∧ normalizeMember (some m) = m) →
      (∀ m ∈ L, m ∉ acc) → L.Nodup →
      List.foldl (fun acc raw =>
          if normalizeMember raw = "" ∨ normalizeMember raw ∈ acc then acc
          else acc ++ [normalizeMember raw]) acc (L.map some) = acc ++ L := by
  induction L with
  | nil => intro acc _ _ _; simp
  | cons m Ls ih =>
      intro acc hprop hdis hnd
      rw [List.map_cons, List.foldl_cons]
      have hm := hprop m (by simp)
      rw [hm.2]
      rw [if_neg (by
        push_neg
        exact ⟨hm.1, hdis m (by simp)⟩)]
      rw [List.nodup_cons] at hnd
      rw [ih (acc ++ [m]) (fun x hx => hprop x (List.mem_cons_of_mem m hx))
        (fun x hx hmem => by
          rcases List.mem_append.1 hmem with hmem | hmem
          · exact hdis x (List.mem_cons_of_mem m hx) hmem
          · rw [List.mem_singleton] at hmem
            subst hmem
            exact hnd.1 hx) hnd.2]
      simp

theorem parseMembers_fixed (L : List String)
    (h : ∀ m ∈ L, m ≠ "" ∧ normalizeMember (some m) = m) (hnd : L.Nodup) :
    parseMembers (.arr (L.map some)) = L := by
  simpa only [parseMembers] using memberFold_fixed L [] h (by simp) hnd

/-- A stored (normalized) event re-normalizes to itself: the merge engine,
snapshot codec and event model agree on the canonical form. -/
theorem normalizeEvent_roundtrip (now : Int) (e : RawEvent) (ne : Event)
    (h : normalizeEvent now e = some ne) (now' : Int) :
    normalizeEvent now' (eventToRaw ne) = some ne := by
  cases hp : parseIntJs e.amountCents with
  | none => rw [normalizeEvent_none_eq now e hp] at h; simp at h
  | some n =>
      rw [normalizeEvent_some_eq now e n hp] at h
      by_cases hcond : normalizeText e.txId = "" ∨ normalizeMember e.payer = "" ∨
          ¬ isSafeInteger n ∨ n ≤ 0 ∨ parseMembers e.split = []
      · rw [if_pos hcond] at h; simp at h
      · rw [if_neg hcond] at h
        push_neg at hcond
        obtain ⟨h1, h2, h3, h4, h5⟩ := hcond
        injection h with h
        subst h
        have hprops := parseMembers_props e.split
        have hsp := parseMembers_fixed (parseMembers e.split) hprops.2 hprops.1
        rw [normalizeEvent_some_eq now'
          (eventToRaw
            { txId := normalizeText e.txId, payer := normalizeMember e.payer
              amountCents := n, split := parseMembers e.split
              note := normalizeText e.note, ts := e.ts.getD now, by_ := e.by_ })
          n rfl]
        simp only [eventToRaw, Option.getD_some]
        rw [if_neg (by
          push_neg
          refine ⟨?_, ?_, h3, by omega, ?_⟩
          · rw [normalizeText_idem]; exact h1
          · rw [normalizeMember_idem]; exact h2
          · rw [hsp]; exact h5)]
        simp only [normalizeText_idem, normalizeMember_idem, hsp]

/-- Re-normalization of a stored event succeeds at any clock value once it
succeeds at one (the stored timestamp is explicit). -/
theorem normalizeEvent_eventToRaw_any (e : Event)
    (h : normalizeEvent 0 (eventToRaw e) = some e) (now' : Int) :
    normalizeEvent now' (eventToRaw e) = some e := by
  have h2 := normalizeEvent_now (eventToRaw e) 0 now' e h
  simpa [eventToRaw] using h2

/-! ## Snapshot codec lemmas -/

theorem resolveChannel_default (d : Option String) :
    resolveChannel (mkConfig d) (some (mkConfig d).defaultChannel)
      = (mkConfig d).defaultChannel := by
  simp only [resolveChannel, normalizeText, Option.getD_some, mkConfig_trim_fixed]
  split <;> rfl

/-- Resolving an already-resolved channel is the identity. -/
theorem resolveChannel_resolved (d : Option String) (ch : Option String) :
    resolveChannel (mkConfig d) (some (resolveChannel (mkConfig d) ch))
      = resolveChannel (mkConfig d) ch := by
  by_cases h : normalizeText ch = ""
  · rw [show resolveChannel (mkConfig d) ch = (mkConfig d).defaultChannel from by
      simp [resolveChannel, h]]
    exact resolveChannel_default d
  · rw [show resolveChannel (mkConfig d) ch = normalizeText ch from by
      simp [resolveChannel, h]]
    simp only [resolveChannel, normalizeText_idem]
    rw [if_neg h]

/-- The snapshot normalization loop keeps every event of an exported room:
stored events re-normalize to themselves and distinct `txId`s never trip the
first-occurrence-wins dedup. -/
theorem snapFold_all (now : Int) :
    ∀ (L : List Event) (acc : List Event),
      (∀ ev ∈ L, normalizeEvent now (eventToRaw ev) = some ev) →
      ((acc ++ L).map Event.txId).Nodup →
      List.foldl (fun acc raw =>
          match normalizeEvent now raw with
          | none => acc
          | some e => if acc.any (fun x => x.txId == e.txId) then acc else acc ++ [e])
        acc (L.map eventToRaw) = acc ++ L := by
  intro L
  induction L with
  | nil => intro acc _ _; simp
  | cons ev Ls ih =>
      intro acc hwf hnd
      simp only [List.map_cons, List.foldl_cons, hwf ev (List.mem_cons_self ev Ls)]
      have hnotin : ev.txId ∉ acc.map Event.txId := by
        rw [List.map_append, List.nodup_append] at hnd
        intro hmem
        exact hnd.2.2 hmem (by simp)
      have hnotany : acc.any (fun x => x.txId == ev.txId) = false := by
        rw [List.any_eq_false]
        intro x hx
        simp only [beq_iff_eq]
        intro hx2
        exact hnotin (List.mem_map.2 ⟨x, hx, hx2⟩)
      rw [if_neg (by rw [hnotany]; simp)]
      rw [ih (acc ++ [ev]) (fun x hx => hwf x (List.mem_cons_of_mem _ hx))
        (by rw [List.append_assoc]; simpa using hnd)]
      simp

/-- The import merge loop adds every event whose `txId` is new, in order,
counting them. -/
theorem roomFold_all :
    ∀ (L : List Event) (r : Room) (n : Nat),
      (∀ e ∈ L, e.txId ∉ r.txSeen) → (L.map Event.txId).Nodup →
      List.foldl (fun (acc : Room × Nat) e =>
          if e.txId ∈ acc.1.txSeen then acc
          else ({ events := acc.1.events ++ [e], txSeen := acc.1.txSeen ++ [e.txId] },
            acc.2 + 1))
        (r, n) L
      = (⟨r.events ++ L, r.txSeen ++ L.map Event.txId⟩, n + L.length) := by
  intro L
  induction L with
  | nil => intro r n _ _; simp
  | cons e Ls ih =>
      intro r n hdis hnd
      rw [List.foldl_cons]
      rw [if_neg (hdis e (List.mem_cons_self e Ls))]
      rw [List.map_cons, List.nodup_cons] at hnd
      rw [ih ⟨r.events ++ [e], r.txSeen ++ [e.txId]⟩ n.succ
        (fun x hx hmem => by
          rcases List.mem_append.1 hmem with hmem | hmem
          · exact hdis x (List.mem_cons_of_mem e hx) hmem
          · rw [List.mem_singleton] at hmem
            exact hnd.1 (hmem ▸ List.mem_map.2 ⟨x, hx, rfl⟩)) hnd.2]
      simp only [List.append_assoc, List.singleton_append, List.map_cons, List.length_cons]
      refine congrArg₂ Prod.mk rfl (by omega)

/-- **C6 (amended).** Re-importing a room's export into the same room with
`replace:true` restores exactly the same set of events (`total` unchanged,
equal to the original event count) — but `added` reports the number of
re-added events, i.e. the full original event count, not `0` (the store was
wiped first).  Importing the export into an empty room likewise reports
`added == total == original event count`.  The hypotheses say the room is a
reachable one: its stored events re-normalize to themselves and their
`txId`s are distinct. -/
theorem C6_snapshot_roundtrip (d : Option String) (ch : Option String) (st : Store)
    (now : Int)
    (hwf : ∀ ev ∈ (roomAt st (resolveChannel (mkConfig d) ch)).events,
      normalizeEvent 0 (eventToRaw ev) = some ev)
    (hnd : ((roomAt st (resolveChannel (mkConfig d) ch)).events.map Event.txId).Nodup) :
    (importRoom (mkConfig d) (some (snapshotToRaw (exportRoom (mkConfig d) ch st)))
        true now st).1
      = .ok (resolveChannel (mkConfig d) ch)
          (roomAt st (resolveChannel (mkConfig d) ch)).events.length
          (roomAt st (resolveChannel (mkConfig d) ch)).events.length ∧
    ((roomAt (importRoom (mkConfig d) (some (snapshotToRaw (exportRoom (mkConfig d) ch st)))
          true now st).2 (resolveChannel (mkConfig d) ch)).events).Perm
      (roomAt st (resolveChannel (mkConfig d) ch)).events ∧
    (importRoom (mkConfig d) (some (snapshotToRaw (exportRoom (mkConfig d) ch st)))
        false now ([] : Store)).1
      = .ok (resolveChannel (mkConfig d) ch)
          (roomAt st (resolveChannel (mkConfig d) ch)).events.length
          (roomAt st (resolveChannel (mkConfig d) ch)).events.length := by
  have hres := resolveChannel_resolved d ch
  have hlist : list (mkConfig d) (some (resolveChannel (mkConfig d) ch)) st
      = List.insertionSort tsLe (roomAt st (resolveChannel (mkConfig d) ch)).events := by
    cases hget : storeGet st (resolveChannel (mkConfig d) ch) with
    | none => simp [list, hres, hget, roomAt, emptyRoom]
    | some room => simp [list, hres, hget, roomAt]
  have hperm : (List.insertionSort tsLe
      (roomAt st (resolveChannel (mkConfig d) ch)).events).Perm
      (roomAt st (resolveChannel (mkConfig d) ch)).events :=
    List.perm_insertionSort tsLe _
  have hsorted : List.Sorted tsLe (List.insertionSort tsLe
      (roomAt st (resolveChannel (mkConfig d) ch)).events) :=
    List.sorted_insertionSort tsLe _
  have hLwf : ∀ ev ∈ List.insertionSort tsLe
      (roomAt st (resolveChannel (mkConfig d) ch)).events,
      normalizeEvent now (eventToRaw ev) = some ev :=
    fun ev hev => normalizeEvent_eventToRaw_any ev (hwf ev (hperm.subset hev)) now
  have hLnd : ((List.insertionSort tsLe
      (roomAt st (resolveChannel (mkConfig d) ch)).events).map Event.txId).Nodup :=
    ((hperm.map Event.txId).nodup_iff).2 hnd
  have hLsort : List.insertionSort tsLe (List.insertionSort tsLe
      (roomAt st (resolveChannel (mkConfig d) ch)).events)
      = List.insertionSort tsLe (roomAt st (resolveChannel (mkConfig d) ch)).events :=
    List.Sorted.insertionSort_eq hsorted
  have hfold := snapFold_all now
    (List.insertionSort tsLe (roomAt st (resolveChannel (mkConfig d) ch)).events) []
    hLwf (by simpa using hLnd)
  have hsnap : normalizeSnapshot (mkConfig d) now
      (some (snapshotToRaw (exportRoom (mkConfig d) ch st))) = some
      { channel := resolveChannel (mkConfig d) ch, version := 1
        events := List.insertionSort tsLe
          (roomAt st (resolveChannel (mkConfig d) ch)).events } := by
    show normalizeSnapshot (mkConfig d) now
      (some ⟨some (resolveChannel (mkConfig d) ch), some 1,
        some ((list (mkConfig d) (some (resolveChannel (mkConfig d) ch)) st).map
          eventToRaw)⟩) = _
    rw [hlist]
    simp only [normalizeSnapshot, Option.getD_some]
    rw [hfold, List.nil_append, hLsort, hres]
    simp [isSafeInteger]
  have hfoldadd := roomFold_all
    (List.insertionSort tsLe (roomAt st (resolveChannel (mkConfig d) ch)).events)
    emptyRoom 0 (by intro e _; simp [emptyRoom]) hLnd
  refine ⟨?_, ?_, ?_⟩
  · cases hget : storeGet st (resolveChannel (mkConfig d) ch) with
    | none =>
        simp only [importRoom, hsnap, getRoom, hget, if_true, hfoldadd]
        simp [emptyRoom, hLsort, hperm.length_eq]
    | some room =>
        simp only [importRoom, hsnap, getRoom, hget, if_true, hfoldadd]
        simp [emptyRoom, hLsort, hperm.length_eq]
  · cases hget : storeGet st (resolveChannel (mkConfig d) ch) with
    | none =>
        simp only [importRoom, hsnap, getRoom, hget, if_true, hfoldadd]
        simp only [emptyRoom, List.nil_append, hLsort]
        rw [roomAt, storeSet_storeSet, storeGet_storeSet_self]
        exact hperm
    | some room =>
        simp only [importRoom, hsnap, getRoom, hget, if_true, hfoldadd]
        simp only [emptyRoom, List.nil_append, hLsort]
        rw [roomAt, storeGet_storeSet_self]
        exact hperm
  · simp only [importRoom, hsnap, getRoom]
    rw [show storeGet ([] : Store) (resolveChannel (mkConfig d) ch) = none from rfl]
    simp only [if_neg (show ¬ (false = true) from by simp)]
    rw [hfoldadd]
    simp [emptyRoom, hLsort, hperm.length_eq]

/-- **C6 counterexample.** Re-importing a room's export with `replace:true`
does *not* report `added == 0`: on a one-event room it reports `added == 1`
(the event count) — `replace` wipes the room and re-adds every event. -/
theorem C6_counterexample :
    (importRoom cfgD (some (snapshotToRaw (exportRoom cfgD (some "zero") stZero)))
        true 0 stZero).1 = .ok "zero" 1 1 ∧
    (importRoom cfgD (some (snapshotToRaw (exportRoom cfgD (some "zero") stZero)))
        true 0 stZero).1 ≠ .ok "zero" 0 1 :=
  ⟨by decide, by decide⟩

theorem C6_snapshot_roundtrip_witness :
    (importRoom (mkConfig none)
        (some (snapshotToRaw (exportRoom (mkConfig none) (some "zero") stZero)))
        true 0 stZero).1
      = .ok (resolveChannel (mkConfig none) (some "zero"))
          (roomAt stZero (resolveChannel (mkConfig none) (some "zero"))).events.length
          (roomAt stZero (resolveChannel (mkConfig none) (some "zero"))).events.length ∧
    (importRoom (mkConfig none)
        (some (snapshotToRaw (exportRoom (mkConfig none) (some "zero") stZero)))
        false 0 ([] : Store)).1
      = .ok (resolveChannel (mkConfig none) (some "zero"))
          (roomAt stZero (resolveChannel (mkConfig none) (some "zero"))).events.length
          (roomAt stZero (resolveChannel (mkConfig none) (some "zero"))).events.length :=
  (fun h => ⟨h.1, h.2.2⟩)
    (C6_snapshot_roundtrip none (some "zero") stZero 0 (by decide) (by decide))

/-! ## The member order is a total preorder with key antisymmetry -/

theorem charsLe_total : ∀ l₁ l₂ : List Char, charsLe l₁ l₂ = true ∨ charsLe l₂ l₁ = true
  | [], _ => Or.inl rfl
  | _ :: _, [] => Or.inr rfl
  | a :: as, b :: bs => by
      rcases Nat.lt_trichotomy a.toNat b.toNat with h | h | h
      · left; simp [charsLe, h]
      · rcases charsLe_total as bs with ih | ih
        · left; simp [charsLe, h, ih]
        · right; simp [charsLe, h.symm, ih]
      · right; simp [charsLe, h]

theorem charsLe_trans : ∀ l₁ l₂ l₃ : List Char,
    charsLe l₁ l₂ = true → charsLe l₂ l₃ = true → charsLe l₁ l₃ = true
  | [], _, _ => fun _ _ => rfl
  | a :: as, [], _ => fun h _ => by simp [charsLe] at h
  | a :: as, b :: bs, [] => fun _ h => by simp [charsLe] at h
  | a :: as, b :: bs, c :: cs => fun h1 h2 => by
      simp only [charsLe] at h1 h2 ⊢
      by_cases hab : a.toNat < b.toNat
      · by_cases hbc : b.toNat < c.toNat
        · rw [if_pos (by omega)]
        · rw [if_pos hab] at h1
          by_cases hcb : c.toNat < b.toNat
          · rw [if_neg hbc, if_pos hcb] at h2
            simp at h2
          · rw [if_pos (by omega)]
      · by_cases hba : b.toNat < a.toNat
        · rw [if_neg hab, if_pos hba] at h1
          simp at h1
        · by_cases hbc : b.toNat < c.toNat
          · rw [if_pos (by omega)]
          · by_cases hcb : c.toNat < b.toNat
            · rw [if_neg hbc, if_pos hcb] at h2
              simp at h2
            · rw [if_neg hab, if_neg hba] at h1
              rw [if_neg hbc, if_neg hcb] at h2
              rw [if_neg (by omega), if_neg (by omega)]
              exact charsLe_trans as bs cs h1 h2

theorem charsLe_antisymm : ∀ l₁ l₂ : List Char,
    charsLe l₁ l₂ = true → charsLe l₂ l₁ = true → l₁ = l₂
  | [], [] => fun _ _ => rfl
  | [], _ :: _ => fun _ h => by simp [charsLe] at h
  | _ :: _, [] => fun h _ => by simp [charsLe] at h
  | a :: as, b :: bs => fun h1 h2 => by
      simp only [charsLe] at h1 h2
      by_cases hab : a.toNat < b.toNat
      · rw [if_neg (by omega), if_pos hab] at h2
        simp at h2
      · by_cases hba : b.toNat < a.toNat
        · rw [if_neg hab, if_pos hba] at h1
          simp at h1
        · rw [if_neg hab, if_neg hba] at h1
          rw [if_neg hba, if_neg hab] at h2
          have h3 : a.toNat = b.toNat := by omega
          have hc : a = b := Char.ext (UInt32.ext h3)
          rw [hc, charsLe_antisymm as bs h1 h2]

theorem memberLe_key_antisymm (a b : String × Int)
    (h1 : memberLe a b) (h2 : memberLe b a) : a.1 = b.1 := by
  have h3 := charsLe_antisymm a.1.data b.1.data h1 h2
  cases ha : a.1 with
  | mk da =>
      cases hb : b.1 with
      | mk db =>
          rw [ha, hb] at h3
          simp only [] at h3
          rw [show da = db from h3]

/-! ## Balance fold characterization -/

theorem mem_iff_mGet (m : BalMap) (hnd : (m.map Prod.fst).Nodup) (k : String) (v : Int) :
    (k, v) ∈ m ↔ mGet m k = some v := by
  induction m with
  | nil => simp [mGet]
  | cons p rest ih =>
      rw [List.map_cons, List.nodup_cons] at hnd
      rw [mGet_cons]
      by_cases h : p.1 = k
      · subst h
        rw [if_pos rfl]
        constructor
        · intro hm
          rcases List.mem_cons.1 hm with hm | hm
          · rw [← hm]
          · exact absurd (List.mem_map.2 ⟨(p.1, v), hm, rfl⟩) hnd.1
        · intro hm
          injection hm with hm
          rw [← hm]
          exact List.mem_cons_self _ _
      · rw [if_neg h]
        rw [List.mem_cons, ← ih hnd.2]
        constructor
        · rintro (hm | hm)
          · exact absurd (congrArg Prod.fst hm).symm h
          · exact hm
        · exact Or.inr

theorem mGet_eq_some_iff (m : BalMap) (k : String) (v : Int) :
    mGet m k = some v ↔ k ∈ m.map Prod.fst ∧ mGetD m k = v := by
  induction m with
  | nil => simp [mGet]
  | cons p rest ih =>
      rw [mGet_cons, mGetD_cons, List.map_cons, List.mem_cons]
      by_cases h : p.1 = k
      · subst h
        simp
      · rw [if_neg h, if_neg h, ih]
        constructor
        · rintro ⟨h1, h2⟩
          exact ⟨Or.inr h1, h2⟩
        · rintro ⟨h1 | h1, h2⟩
          · exact absurd h1.symm h
          · exact ⟨h1, h2⟩

theorem memberLoop_mGetD (e : Event) (ps : List (Nat × String)) :
    ∀ (m : BalMap) (k : String),
      mGetD (ps.foldl (fun acc p => mSet acc p.2 (mGetD acc p.2 - shareAt e p.1)) m) k
        = mGetD m k
          - ((ps.filter (fun p => p.2 == k)).map (fun p => shareAt e p.1)).sum := by
  induction ps with
  | nil => intro m k; simp
  | cons q qs ih =>
      intro m k
      rw [List.foldl_cons, ih]
      by_cases h : q.2 = k
      · subst h
        rw [mGetD_mSet_self]
        rw [List.filter_cons_of_pos (by simp)]
        simp only [List.map_cons, List.sum_cons]
        ring
      · rw [mGetD_mSet_ne _ _ _ _ (fun hk => h hk.symm)]
        rw [List.filter_cons_of_neg (by simp [h])]

theorem memberLoop_keys (e : Event) (ps : List (Nat × String)) :
    ∀ (m : BalMap) (a : String),
      (a ∈ (ps.foldl (fun acc p => mSet acc p.2 (mGetD acc p.2 - shareAt e p.1)) m).map
        Prod.fst)
        ↔ a ∈ m.map Prod.fst ∨ a ∈ ps.map Prod.snd := by
  induction ps with
  | nil => intro m a; simp
  | cons q qs ih =>
      intro m a
      rw [List.foldl_cons, ih, keys_mSet]
      simp only [List.map_cons, List.mem_cons]
      tauto

theorem memberLoop_nodupKeys (e : Event) (ps : List (Nat × String)) :
    ∀ m : BalMap, (m.map Prod.fst).Nodup →
      ((ps.foldl (fun acc p => mSet acc p.2 (mGetD acc p.2 - shareAt e p.1)) m).map
        Prod.fst).Nodup := by
  induction ps with
  | nil => intro m h; exact h
  | cons q qs ih =>
      intro m h
      rw [List.foldl_cons]
      exact ih _ (nodupKeys_mSet _ _ _ h)

theorem applyEventBal_mGetD (m : BalMap) (e : Event) (k : String) :
    mGetD (applyEventBal m e) k = mGetD m k + eventDelta e k := by
  by_cases h : e.split.isEmpty
  · rw [applyEventBal, if_pos h, eventDelta, if_pos h]
    ring
  · rw [applyEventBal, if_neg h, eventDelta, if_neg h]
    by_cases hp : e.payer = k
    · subst hp
      rw [mGetD_mSet_self, memberLoop_mGetD]
      rw [if_pos rfl]
      ring
    · rw [mGetD_mSet_ne _ _ _ _ (fun hk => hp hk.symm), memberLoop_mGetD]
      rw [if_neg hp]
      ring

theorem applyEventBal_keys (m : BalMap) (e : Event) (a : String) :
    a ∈ (applyEventBal m e).map Prod.fst ↔ a ∈ m.map Prod.fst ∨ touches e a := by
  by_cases h : e.split.isEmpty
  · rw [applyEventBal, if_pos h]
    simp [touches, h]
  · rw [applyEventBal, if_neg h, keys_mSet, memberLoop_keys]
    rw [show e.split.enum.map Prod.snd = e.split from List.enum_map_snd e.split]
    simp only [touches, h]
    tauto

theorem applyEventBal_nodupKeys (m : BalMap) (e : Event)
    (h : (m.map Prod.fst).Nodup) : ((applyEventBal m e).map Prod.fst).Nodup := by
  by_cases hs : e.split.isEmpty
  · rw [applyEventBal, if_pos hs]; exact h
  · rw [applyEventBal, if_neg hs]
    exact nodupKeys_mSet _ _ _ (memberLoop_nodupKeys e _ m h)

theorem balFold_mGetD (l : List Event) :
    ∀ (m : BalMap) (k : String),
      mGetD (l.foldl applyEventBal m) k
        = mGetD m k + (l.map (fun e => eventDelta e k)).sum := by
  induction l with
  | nil => intro m k; simp
  | cons e rest ih =>
      intro m k
      rw [List.foldl_cons, ih, applyEventBal_mGetD]
      simp only [List.map_cons, List.sum_cons]
      ring

theorem balFold_keys (l : List Event) :
    ∀ (m : BalMap) (a : String),
      a ∈ (l.foldl applyEventBal m).map Prod.fst
        ↔ a ∈ m.map Prod.fst ∨ ∃ e ∈ l, touches e a := by
  induction l with
  | nil => intro m a; simp
  | cons e rest ih =>
      intro m a
      rw [List.foldl_cons, ih, applyEventBal_keys]
      simp only [List.mem_cons]
      constructor
      · rintro ((hm | ht) | ⟨x, hx, ht⟩)
        · exact Or.inl hm
        · exact Or.inr ⟨e, Or.inl rfl, ht⟩
        · exact Or.inr ⟨x, Or.inr hx, ht⟩
      · rintro (hm | ⟨x, hx | hx, ht⟩)
        · exact Or.inl (Or.inl hm)
        · exact Or.inl (Or.inr (hx ▸ ht))
        · exact Or.inr ⟨x, hx, ht⟩

theorem balFold_nodupKeys (l : List Event) :
    ∀ m : BalMap, (m.map Prod.fst).Nodup →
      ((l.foldl applyEventBal m).map Prod.fst).Nodup := by
  induction l with
  | nil => intro m h; exact h
  | cons e rest ih =>
      intro m h
      rw [List.foldl_cons]
      exact ih _ (applyEventBal_nodupKeys m e h)

/-! ## Order independence -/

theorem balFold_perm (l₁ l₂ : List Event) (hp : l₁.Perm l₂) :
    (l₁.foldl applyEventBal []).Perm (l₂.foldl applyEventBal []) := by
  have nd₁ := balFold_nodupKeys l₁ [] (by simp)
  have nd₂ := balFold_nodupKeys l₂ [] (by simp)
  rw [List.perm_ext_iff_of_nodup (List.Nodup.of_map Prod.fst nd₁)
    (List.Nodup.of_map Prod.fst nd₂)]
  rintro ⟨k, v⟩
  rw [mem_iff_mGet _ nd₁, mem_iff_mGet _ nd₂, mGet_eq_some_iff, mGet_eq_some_iff]
  rw [balFold_keys, balFold_keys, balFold_mGetD, balFold_mGetD]
  have hsum : (l₁.map (fun e => eventDelta e k)).sum
      = (l₂.map (fun e => eventDelta e k)).sum := (hp.map _).sum_eq
  have hex : (∃ e ∈ l₁, touches e k) ↔ ∃ e ∈ l₂, touches e k := by
    constructor <;> rintro ⟨e, he, ht⟩
    · exact ⟨e, hp.subset he, ht⟩
    · exact ⟨e, hp.symm.subset he, ht⟩
  rw [hsum, hex]

theorem eq_of_perm_sorted_nodupKeys (A B : List (String × Int)) (h : A.Perm B)
    (hA : List.Sorted memberLe A) (hB : List.Sorted memberLe B)
    (hndA : (A.map Prod.fst).Nodup) : A = B := by
  have hndB : (B.map Prod.fst).Nodup := ((h.map Prod.fst).nodup_iff).1 hndA
  have hkA : List.Pairwise (fun a b : String × Int => a.1 ≠ b.1) A :=
    (List.pairwise_map).1 hndA
  have hkB : List.Pairwise (fun a b : String × Int => a.1 ≠ b.1) B :=
    (List.pairwise_map).1 hndB
  exact @List.eq_of_perm_of_sorted _
    (fun a b : String × Int => memberLe a b ∧ a.1 ≠ b.1)
    ⟨fun a b h1 h2 => absurd (memberLe_key_antisymm a b h1.1 h2.1) h1.2⟩
    _ _ h (hA.and hkA) (hB.and hkB)

theorem list_eq_sort_roomAt (cfg : Config) (ch : Option String) (st : Store) :
    list cfg ch st = List.insertionSort tsLe (roomAt st (resolveChannel cfg ch)).events := by
  cases hget : storeGet st (resolveChannel cfg ch) with
  | none => simp [list, roomAt, hget, emptyRoom, List.insertionSort]
  | some room => simp [list, roomAt, hget]

theorem balances_eq_of_room_perm (cfg : Config) (ch : Option String) (st₁ st₂ : Store)
    (h : (roomAt st₁ (resolveChannel cfg ch)).events.Perm
      (roomAt st₂ (resolveChannel cfg ch)).events) :
    balances cfg ch st₁ = balances cfg ch st₂ := by
  have hl : (list cfg ch st₁).Perm (list cfg ch st₂) := by
    rw [list_eq_sort_roomAt, list_eq_sort_roomAt]
    exact (List.perm_insertionSort tsLe _).trans
      (h.trans (List.perm_insertionSort tsLe _).symm)
  have hM := balFold_perm _ _ hl
  simp only [balances]
  refine eq_of_perm_sorted_nodupKeys _ _ ?_ ?_ ?_ ?_
  · exact (List.perm_insertionSort memberLe _).trans
      (hM.trans (List.perm_insertionSort memberLe _).symm)
  · exact @List.sorted_insertionSort _ memberLe _
      ⟨fun a b => charsLe_total a.1.data b.1.data⟩
      ⟨fun a b c => charsLe_trans a.1.data b.1.data c.1.data⟩ _
  · exact @List.sorted_insertionSort _ memberLe _
      ⟨fun a b => charsLe_total a.1.data b.1.data⟩
      ⟨fun a b c => charsLe_trans a.1.data b.1.data c.1.data⟩ _
  · exact (((List.perm_insertionSort memberLe _).map Prod.fst).nodup_iff).2
      (balFold_nodupKeys _ [] (by simp))

theorem settlements_eq_of_room_perm (cfg : Config) (ch : Option String) (st₁ st₂ : Store)
    (h : (roomAt st₁ (resolveChannel cfg ch)).events.Perm
      (roomAt st₂ (resolveChannel cfg ch)).events) :
    settlements cfg ch st₁ = settlements cfg ch st₂ := by
  have hb := balances_eq_of_room_perm cfg ch st₁ st₂ h
  simp only [settlements, hb]

theorem roomAt_storeSet_self (st : Store) (k : String) (r : Room) :
    roomAt (storeSet st k r) k = r := by
  rw [roomAt, storeGet_storeSet_self]
  rfl

/-- Applying a list of valid, `txId`-distinct raw events to a store appends
exactly their normalized forms to the target room, in arrival order. -/
theorem addAll_room (cfg : Config) (ch : Option String) (now : Int) :
    ∀ (l : List RawEvent) (st : Store),
      (∀ e ∈ l, (normalizeEvent now e).isSome) →
      (roomAt st (resolveChannel cfg ch)).txSeen
        = (roomAt st (resolveChannel cfg ch)).events.map Event.txId →
      (((roomAt st (resolveChannel cfg ch)).events
          ++ l.filterMap (normalizeEvent now)).map Event.txId).Nodup →
      roomAt (addAll cfg ch now st l) (resolveChannel cfg ch)
        = ⟨(roomAt st (resolveChannel cfg ch)).events ++ l.filterMap (normalizeEvent now),
            ((roomAt st (resolveChannel cfg ch)).events
              ++ l.filterMap (normalizeEvent now)).map Event.txId⟩ := by
  intro l
  induction l with
  | nil =>
      intro st hval hseen hnd
      simp only [addAll, List.foldl_nil, List.filterMap_nil, List.append_nil]
      rw [← hseen]
  | cons e rest ih =>
      intro st hval hseen hnd
      obtain ⟨ne, hne⟩ := Option.isSome_iff_exists.1 (hval e (List.mem_cons_self e rest))
      have hfm : (e :: rest).filterMap (normalizeEvent now)
          = ne :: rest.filterMap (normalizeEvent now) := by
        simp [List.filterMap_cons, hne]
      rw [hfm] at hnd ⊢
      have hnew : ne.txId ∉ (roomAt st (resolveChannel cfg ch)).txSeen := by
        rw [hseen]
        rw [List.map_append, List.nodup_append] at hnd
        intro hmem
        exact hnd.2.2 hmem (by simp)
      have hstep := addEvent_valid cfg ch e now st ne hne hnew
      have hst2 : (addEvent cfg ch e now st).2
          = storeSet st (resolveChannel cfg ch)
              ⟨(roomAt st (resolveChannel cfg ch)).events ++ [ne],
                (roomAt st (resolveChannel cfg ch)).events.map Event.txId ++ [ne.txId]⟩ := by
        rw [hstep, hseen]
      rw [show addAll cfg ch now st (e :: rest)
          = addAll cfg ch now ((addEvent cfg ch e now st).2) rest from rfl, hst2]
      rw [ih _ (fun x hx => hval x (List.mem_cons_of_mem e hx))
        (by simp only [roomAt_storeSet_self]; simp)
        (by simp only [roomAt_storeSet_self]
            simpa [List.append_assoc] using hnd)]
      simp only [roomAt_storeSet_self]
      simp [List.append_assoc]

/-- **C4.** For every set of valid events with pairwise-distinct `txId`s and
any two arrival orders, applying each order to its own fresh room yields the
same stored events up to order (the same set), and byte-for-byte identical
balance and settlement outputs. -/
theorem C4_order_independence (cfg : Config) (ch : Option String) (now : Int)
    (l₁ l₂ : List RawEvent) (hperm : l₁.Perm l₂)
    (hval : ∀ e ∈ l₁, (normalizeEvent now e).isSome)
    (hnd : ((l₁.filterMap (normalizeEvent now)).map Event.txId).Nodup) :
    (roomAt (addAll cfg ch now [] l₁) (resolveChannel cfg ch)).events.Perm
      (roomAt (addAll cfg ch now [] l₂) (resolveChannel cfg ch)).events ∧
    balances cfg ch (addAll cfg ch now [] l₁)
      = balances cfg ch (addAll cfg ch now [] l₂) ∧
    settlements cfg ch (addAll cfg ch now [] l₁)
      = settlements cfg ch (addAll cfg ch now [] l₂) := by
  have hval₂ : ∀ e ∈ l₂, (normalizeEvent now e).isSome :=
    fun e he => hval e (hperm.symm.subset he)
  have hfmperm : (l₁.filterMap (normalizeEvent now)).Perm
      (l₂.filterMap (normalizeEvent now)) := hperm.filterMap _
  have hnd₂ : ((l₂.filterMap (normalizeEvent now)).map Event.txId).Nodup :=
    ((hfmperm.map _).nodup_iff).1 hnd
  have h₁ := addAll_room cfg ch now l₁ [] hval rfl
    (by simpa [roomAt, storeGet, emptyRoom] using hnd)
  have h₂ := addAll_room cfg ch now l₂ [] hval₂ rfl
    (by simpa [roomAt, storeGet, emptyRoom] using hnd₂)
  simp only [show roomAt ([] : Store) (resolveChannel cfg ch) = emptyRoom from rfl,
    emptyRoom, List.nil_append] at h₁ h₂
  have hroomperm : (roomAt (addAll cfg ch now [] l₁) (resolveChannel cfg ch)).events.Perm
      (roomAt (addAll cfg ch now [] l₂) (resolveChannel cfg ch)).events := by
    rw [h₁, h₂]
    exact hfmperm
  exact ⟨hroomperm, balances_eq_of_room_perm _ _ _ _ hroomperm,
    settlements_eq_of_room_perm _ _ _ _ hroomperm⟩

theorem C4_order_independence_witness :
    balances cfgD (some "room")
        (addAll cfgD (some "room") 0 []
          [rawPay "t1" "alice" 3000 ["alice", "bob"] 1,
            rawPay "t2" "bob" 1000 ["alice", "bob"] 2])
      = balances cfgD (some "room")
        (addAll cfgD (some "room") 0 []
          [rawPay "t2" "bob" 1000 ["alice", "bob"] 2,
            rawPay "t1" "alice" 3000 ["alice", "bob"] 1]) :=
  (C4_order_independence cfgD (some "room") 0 _ _ (List.Perm.swap _ _ _)
    (by decide) (by decide)).2.1
